import Mathlib

/-!
Verification of the three Python tools of this repository:

* spaces.py   -- markdown reformatter (front-matter split, blank-line
                 normalisation around headings and images, code-fence
                 passthrough, stylesheet-link appending);
* automation.py -- the zip importer (slugify, image sanitising and
                 renaming, markdown/HTML image-reference rewriting,
                 per-archive processing and the batch loop);
* fix_dates.py -- the date normaliser (multiline regex substitution).

Lines and texts are modelled as List Char.  Python's readlines-style
lines keep their trailing newline character.
-/

set_option maxRecDepth 20000

abbrev Line := List Char

/-- The whitespace characters stripped by Python's str.strip() and matched
by the regex class \s (ASCII range; exotic Unicode spaces are not used by
any input considered here). -/
def isWs (c : Char) : Bool :=
  c = ' ' || c = '\t' || c = '\n' || c = '\r' || c = '\x0b' || c = '\x0c'

/-- Right strip: remove trailing whitespace, as the tail end of
Python's str.strip(). -/
def rstripW (l : List Char) : List Char :=
  (l.reverse.dropWhile isWs).reverse

/-- Python's str.strip(): drop whitespace from both ends. -/
def pstrip (l : List Char) : List Char :=
  (rstripW l).dropWhile isWs

/-- A line is blank when line.strip() == "". -/
def isBlankL (l : Line) : Bool := pstrip l = []

/-- Bool-valued list-prefix test, used by the substring search. -/
def prefixOfB : List Char → List Char → Bool
  | [], _ => true
  | _ :: _, [] => false
  | a :: as, b :: bs => a = b && prefixOfB as bs

/-- Python's `needle in haystack`: substring occurrence. -/
def subStr (n : List Char) : List Char → Bool
  | [] => prefixOfB n []
  | h :: t => prefixOfB n (h :: t) || subStr n t

/-! ## spaces.py -/

/-- The backtick character (written via its code point). -/
def btick : Char := Char.ofNat 96

/-- One of the two fence markers recognised by RE_FENCE. -/
def fenceTicks : List Char := [btick, btick, btick]

/-- The other fence marker recognised by RE_FENCE. -/
def fenceTildes : List Char := ['~', '~', '~']

/-- RE_FENCE applied to line.strip(): the stripped line starts with
one of the two three-character fence markers. -/
def isFence (l : Line) : Bool :=
  (pstrip l).take 3 = fenceTicks || (pstrip l).take 3 = fenceTildes

/-- After having read "![", try to complete the image pattern:
[^\]]* then ']' '(' then [^)]+ then ')'.  The greedy character classes
cannot cross their excluded character, so the parse is forced. -/
def imgAfterBang (s : List Char) : Bool :=
  match s.span (fun c => c ≠ ']') with
  | (_, ']' :: '(' :: r2) =>
    match r2.span (fun c => c ≠ ')') with
    | (b, ')' :: _) => b ≠ []
    | _ => false
  | _ => false

/-- RE_IMAGE.search: somewhere in the string an occurrence of
the pattern starting with "![".  The scan tries each position
left to right, exactly as re.search does. -/
def imgSearch : List Char → Bool
  | [] => false
  | '!' :: rest =>
    (match rest with
     | '[' :: r2 => imgAfterBang r2
     | _ => false) || imgSearch rest
  | _ :: rest => imgSearch rest

/-- RE_IMAGE.search applied to line.strip(), as in process_content_lines. -/
def isImage (l : Line) : Bool := imgSearch (pstrip l)

/-- RE_HEADER = `^(#{1,6})\s+\S` matched against line.strip():
a run of one to six hash marks, at least one whitespace character,
then a non-whitespace character.  A run of seven or more hashes never
matches, because every shorter hash prefix is followed by another
hash, which \s+ rejects. -/
def isHeader (l : Line) : Bool :=
  let s := pstrip l
  let k := (s.takeWhile (fun c => c = '#')).length
  decide (1 ≤ k) && decide (k ≤ 6) &&
    ((s.drop k).takeWhile isWs ≠ []) && ((s.drop k).dropWhile isWs ≠ [])

/-- The blank line literally appended by the Python code. -/
def nlL : Line := ['\n']

/-- `line if line.endswith("\n") else line + "\n"`. -/
def ensureNl (l : Line) : Line :=
  if l.getLast? = some '\n' then l else l ++ ['\n']

/-- The look-ahead `i + 1 < L and lines[i+1].strip() != ""` of the
image/header branches, expressed on the remaining input lines. -/
def nextNonblank : List Line → Bool
  | [] => false
  | r :: _ => !isBlankL r

/-- The loop body of process_content_lines.  The state is the code-fence
flag plus the observable part of `out`: `none` when out is empty,
`some b` when the last emitted line has blankness `b`
(i.e. b = (out[-1].strip() == "")).  The image and header branches of the
source are literally identical, hence a single branch here.  The inserted
line "\n" strips to empty, so its blankness flag is `true`. -/
def go (inCode : Bool) (last : Option Bool) : List Line → List Line
  | [] => []
  | l :: rest =>
    if isFence l then
      l :: go (!inCode) (some (isBlankL l)) rest
    else if inCode then
      l :: go inCode (some (isBlankL l)) rest
    else if isImage l || isHeader l then
      (if last = some false then [nlL] else []) ++
        (ensureNl l ::
          if nextNonblank rest then
            nlL :: go inCode (some true) rest
          else
            go inCode (some (isBlankL (ensureNl l))) rest)
    else if isBlankL l then
      if last = some true then go inCode last rest
      else nlL :: go inCode (some true) rest
    else
      ensureNl l :: go inCode (some (isBlankL (ensureNl l))) rest

/-- process_content_lines: run the loop with in_code = False and out = []. -/
def process_content_lines (ls : List Line) : List Line := go false none ls

/-- The literal "---" that delimits front matter. -/
def dashes : List Char := ['-', '-', '-']

/-- The scan of split_front_matter for the closing '---' line:
returns the consumed front lines (closing line included) and
the remaining content, or none when no closing line exists. -/
def findClose : List Line → Option (List Line × List Line)
  | [] => none
  | l :: rest =>
    if pstrip l = dashes then some ([l], rest)
    else (findClose rest).map (fun p => (l :: p.1, p.2))

/-- split_front_matter: (front_lines, content_lines); when the document
does not open with '---', or the front matter never closes, everything
is content. -/
def split_front_matter (ls : List Line) : List Line × List Line :=
  match ls with
  | [] => ([], [])
  | h :: t =>
    if pstrip h = dashes then
      match findClose t with
      | some (ft, rest) => (h :: ft, rest)
      | none => ([], ls)
    else ([], ls)

/-- The substring marker searched by append_css_link_if_missing. -/
def needle : List Char := "imagesstyle.css".toList

/-- CSS_LINK_LINE. -/
def cssLine : List Char :=
  "<link rel=\"stylesheet\" href=\"\x7b\x7b '/assets/css/imagesstyle.css' | relative_url \x7d\x7d\">".toList

/-- append_css_link_if_missing: if the marker substring occurs in the
joined lines, return them unchanged; otherwise pad with a blank line
when the last line is non-blank, then append a blank line and the CSS
line (with its newline). -/
def append_css_link_if_missing (lines : List Line) : List Line :=
  if subStr needle lines.flatten then lines
  else
    let pad : List Line :=
      match lines.getLast? with
      | some l => if isBlankL l then [] else [nlL]
      | none => []
    lines ++ pad ++ [nlL, cssLine ++ ['\n']]

/-- The full per-file transformation of process_file on the line list:
split off front matter, reformat the content, append the CSS link if
missing, and put the front matter back. -/
def transform (ls : List Line) : List Line :=
  let p := split_front_matter ls
  p.1 ++ append_css_link_if_missing (process_content_lines p.2)

/-- Number of fence-marker lines in a list of lines (each one toggles
the in-code state of the processor). -/
def fenceCount (ls : List Line) : Nat :=
  (ls.filter (fun l => isFence l)).length

/-! ## automation.py -/

/-- The single-quote character (written via its code point). -/
def squote : Char := Char.ofNat 39

/-- A hexadecimal digit's value, for percent-decoding. -/
def hexVal (c : Char) : Option Nat :=
  if '0' ≤ c ∧ c ≤ '9' then some (c.toNat - 48)
  else if 'a' ≤ c ∧ c ≤ 'f' then some (c.toNat - 87)
  else if 'A' ≤ c ∧ c ≤ 'F' then some (c.toNat - 55)
  else none

/-- urllib.parse.unquote, modelled for single-byte percent escapes
(a valid %XX pair decodes to the character with that code point, an
invalid one is kept literally; multi-byte UTF-8 escape sequences are
not modelled, and no input below uses them). -/
def unquote : List Char → List Char
  | [] => []
  | '%' :: a :: b :: rest =>
    match hexVal a, hexVal b with
    | some x, some y => Char.ofNat (16 * x + y) :: unquote rest
    | _, _ => '%' :: unquote (a :: b :: rest)
  | c :: rest => c :: unquote rest

/-- os.path.basename: the part after the last '/'. -/
def basenameP (s : List Char) : List Char :=
  (s.reverse.takeWhile (fun c => c ≠ '/')).reverse

/-- pathlib suffix: name[i:] for i the index of the last dot, provided
0 < i < len(name) - 1; otherwise empty.  The takeWhile computes the
characters after the last dot (reversed). -/
def psuffix (name : List Char) : List Char :=
  let r := name.reverse.takeWhile (fun c => c ≠ '.')
  if r.length + 1 < name.length ∧ 0 < r.length then '.' :: r.reverse
  else []

/-- pathlib stem: the name with its suffix removed. -/
def pstem (name : List Char) : List Char :=
  name.take (name.length - (psuffix name).length)

/-- os.path.splitext on a bare file name: split at the last dot provided
some earlier character of the name is not a dot. -/
def splitext (p : List Char) : List Char × List Char :=
  let r := p.reverse.takeWhile (fun c => c ≠ '.')
  if r.length = p.length then (p, [])
  else
    let i := p.length - 1 - r.length
    if (p.take i).any (fun c => c ≠ '.') then (p.take i, p.drop i) else (p, [])

/-- The recognised image extensions (IMG_EXTS). -/
def IMG_EXTS : List (List Char) :=
  [".png".toList, ".jpg".toList, ".jpeg".toList, ".gif".toList, ".webp".toList]

/-- The recognised markdown extensions. -/
def mdExts : List (List Char) := [".md".toList, ".markdown".toList]

/-- The character class [A-Za-z0-9] of sanitize_img. -/
def isAlnumA (c : Char) : Bool :=
  ('A' ≤ c && c ≤ 'Z') || ('a' ≤ c && c ≤ 'z') || ('0' ≤ c && c ≤ '9')

/-- Worker of underRuns: the flag records whether the scan is inside a
non-alphanumeric run whose single replacement underscore has already
been emitted. -/
def underAux : Bool → List Char → List Char
  | _, [] => []
  | inRun, c :: cs =>
    if isAlnumA c then c :: underAux false cs
    else if inRun then underAux true cs
    else '_' :: underAux true cs

/-- re.sub(r"[^A-Za-z0-9]+", "_", s): every maximal run of characters
outside the class becomes a single underscore. -/
def underRuns (s : List Char) : List Char := underAux false s

/-- str.strip(ch): drop the given character from both ends. -/
def stripChar (ch : Char) (l : List Char) : List Char :=
  ((l.dropWhile (fun c => c = ch)).reverse.dropWhile (fun c => c = ch)).reverse

/-- sanitize_img: split base and extension, URL-decode the base, replace
non-alphanumeric runs by single underscores, trim underscores, fall back
to "img" when empty; lower-case the extension, defaulting to ".png" when
absent or unrecognised. -/
def sanitize_img (name : List Char) : List Char :=
  let pe := splitext (basenameP name)
  let base1 := stripChar '_' (underRuns (unquote pe.1))
  let base2 := if base1 = [] then "img".toList else base1
  let ext1 := if pe.2 = [] then ".png".toList else pe.2.map Char.toLower
  let ext2 := if ext1 ∈ IMG_EXTS then ext1 else ".png".toList
  base2 ++ ext2

/-- build_new_img_name: f"{slug}_{sanitize_img(orig_path)}". -/
def build_new_img_name (slug origPath : List Char) : List Char :=
  slug ++ '_' :: sanitize_img origPath

/-- The character class [a-z0-9] of slugify. -/
def isSlugChar (c : Char) : Bool :=
  ('a' ≤ c && c ≤ 'z') || ('0' ≤ c && c ≤ '9')

/-- Model of unicodedata.normalize("NFKD", s).encode("ascii", "ignore"):
identity on ASCII characters, non-ASCII characters dropped.  (The ASCII
projections of decomposed non-ASCII characters are not modelled; every
property proved below treats the resulting ASCII text uniformly, so none
depends on which ASCII characters a non-ASCII input contributes.) -/
def nfkdAscii (s : List Char) : List Char := s.filter (fun c => c.toNat ≤ 127)

/-- Worker of hyphenRuns: the flag records whether the scan is inside a
non-[a-z0-9] run whose single replacement hyphen has already been
emitted. -/
def hyphenAux : Bool → List Char → List Char
  | _, [] => []
  | inRun, c :: cs =>
    if isSlugChar c then c :: hyphenAux false cs
    else if inRun then hyphenAux true cs
    else '-' :: hyphenAux true cs

/-- re.sub(r"[^a-z0-9]+", "-", s): every maximal run outside [a-z0-9]
becomes a single hyphen. -/
def hyphenRuns (s : List Char) : List Char := hyphenAux false s

/-- The value of slugify before the fallback. -/
def slugCore (s : List Char) : List Char :=
  stripChar '-' (hyphenRuns ((nfkdAscii s).map Char.toLower))

/-- slugify: ASCII-fold, lower-case, hyphenate non-alphanumeric runs,
trim hyphens, fall back to "post" when empty. -/
def slugify (s : List Char) : List Char :=
  if slugCore s = [] then "post".toList else slugCore s

/-- Kind of a filesystem entry in the extracted tree. -/
inductive EKind
  | file
  | dir
deriving DecidableEq, Repr

/-- An entry of the extracted tree, in rglob traversal order.  Only the
final path component matters to the importer (suffix, name, stem are all
derived from it), so the directory part is not modelled. -/
structure Entry where
  name : List Char
  kind : EKind
  text : List Char
deriving DecidableEq, Repr

/-- find_first_markdown: the first entry whose lower-cased suffix is
.md or .markdown.  There is no is_file check, so a directory with such
a name is found too. -/
def find_first_markdown (tree : List Entry) : Option Entry :=
  tree.find? (fun e => decide ((psuffix e.name).map Char.toLower ∈ mdExts))

/-- collect_images: regular files whose lower-cased suffix is a
recognised image extension. -/
def collect_images (tree : List Entry) : List Entry :=
  tree.filter (fun e =>
    decide (e.kind = .file) &&
      decide ((psuffix e.name).map Char.toLower ∈ IMG_EXTS))

/-- Python dict lookup over insertion-ordered bindings: a later binding
for the same key overrides an earlier one. -/
def dget (m : List (List Char × List Char)) (k : List Char) :
    Option (List Char) :=
  match m with
  | [] => none
  | (k', v) :: rest =>
    match dget rest k with
    | some v2 => some v2
    | none => if k' = k then some v else none

/-- The templated asset path f"/assets/images/{slug}/{new_fn}". -/
def newPath (slug fn : List Char) : List Char :=
  "/assets/images/".toList ++ slug ++ '/' :: fn

/-- Attempt MD_IMG_RE = `!\[(?P<alt>[^\]]*)\]\((?P<src>[^)]+)\)` at the
head of the string: alt runs to the first ']', which must be followed by
'(', and src is the non-empty run to the first ')'.  Returns
(alt, src, remainder after the match). -/
def mdImgTry (s : List Char) : Option (List Char × List Char × List Char) :=
  match s with
  | '!' :: '[' :: r =>
    match r.span (fun c => c ≠ ']') with
    | (alt, ']' :: '(' :: r2) =>
      match r2.span (fun c => c ≠ ')') with
      | (src, ')' :: r4) => if src = [] then none else some (alt, src, r4)
      | _ => none
    | _ => none
  | _ => none

/-- The _sub body of replace_markdown_images for one match: URL-decode
the stripped src, look up its lower-cased base name; on a hit rewrite to
the templated path keeping the alt text, otherwise reproduce the match. -/
def md_sub_one (mapping : List (List Char × List Char)) (slug : List Char)
    (alt src : List Char) : List Char :=
  let key := (basenameP (unquote (pstrip src))).map Char.toLower
  match dget mapping key with
  | none => '!' :: '[' :: alt ++ ']' :: '(' :: src ++ [')']
  | some fn =>
    "![".toList ++ alt ++ "](\x7b\x7b '".toList ++ newPath slug fn ++
      "' | relative_url \x7d\x7d)".toList

/-- Worker of MD_IMG_RE.sub: scan left to right; the counter holds the
number of still-to-skip characters of a replaced match (its emission
happened when the match was found), so the recursion is structural. -/
def mdSubAux (mapping : List (List Char × List Char)) (slug : List Char) :
    List Char → Nat → List Char
  | [], _ => []
  | _ :: rest, skip + 1 => mdSubAux mapping slug rest skip
  | c :: rest, 0 =>
    match mdImgTry (c :: rest) with
    | some (alt, src, r4) =>
      md_sub_one mapping slug alt src ++
        mdSubAux mapping slug rest ((c :: rest).length - r4.length - 1)
    | none => c :: mdSubAux mapping slug rest 0

/-- MD_IMG_RE.sub(_sub, text): scan left to right, replacing each
non-overlapping match and resuming after it. -/
def replace_markdown_images (text : List Char)
    (mapping : List (List Char × List Char)) (slug : List Char) :
    List Char :=
  mdSubAux mapping slug text 0

/-- Case-insensitive character comparison, for re.IGNORECASE literals. -/
def ciChar (a b : Char) : Bool := a.toLower = b.toLower

/-- After '<' parse the literal "img" (case-insensitively) and \s+,
returning the remainder after the maximal whitespace run. -/
def htmlAfterLt (s : List Char) : Option (List Char) :=
  match s with
  | c1 :: c2 :: c3 :: rest =>
    if ciChar c1 'i' && ciChar c2 'm' && ciChar c3 'g' then
      if rest.takeWhile isWs = [] then none
      else some (rest.dropWhile isWs)
    else none
  | _ => none

/-- From a candidate position, parse `src=["'](?P<src>[^"']+)["']
(?P<rest>[^>]*)>`: the literal src= (case-insensitive), an opening
quote of either kind, a non-empty run free of both quote characters,
a closing quote of either kind, then the run to the next '>'. -/
def checkSrcAt (t : List Char) :
    Option (List Char × List Char × List Char) :=
  match t with
  | c1 :: c2 :: c3 :: c4 :: q :: r =>
    if ciChar c1 's' && ciChar c2 'r' && ciChar c3 'c' && c4 = '=' &&
        (q = '"' || q = squote) then
      match r.span (fun c => c ≠ '"' && c ≠ squote) with
      | (src, _ :: r2) =>
        if src = [] then none
        else
          match r2.span (fun c => c ≠ '>') with
          | (rest, '>' :: rem) => some (src, rest, rem)
          | _ => none
      | _ => none
    else none
  | _ => none

/-- The backtracking of `[^>]*src=`: the greedy class first consumes n
characters, then gives characters back one by one until the rest of the
pattern matches; so the rightmost viable src= position wins. -/
def htmlScan : Nat → List Char → Option (List Char × List Char × List Char)
  | 0, r1 => checkSrcAt (r1.drop 0)
  | n + 1, r1 =>
    match checkSrcAt (r1.drop (n + 1)) with
    | some res => some res
    | none => htmlScan n r1

/-- Attempt HTML_IMG_RE at the head of the string; on success returns
(src group, rest group, remainder after the closing '>').  The greedy
`[^>]*` cannot cross a '>', so candidate positions are the suffixes of
the maximal '>'-free run, tried rightmost first. -/
def htmlTry (s : List Char) : Option (List Char × List Char × List Char) :=
  match s with
  | '<' :: r0 =>
    match htmlAfterLt r0 with
    | none => none
    | some r1 => htmlScan (r1.takeWhile (fun c => c ≠ '>')).length r1
  | _ => none

/-- The _sub body of replace_html_images for one match: on a mapping hit
the whole tag is replaced by `<img src="..."` plus the post-src
attributes and '>'; otherwise the matched text is reproduced. -/
def html_sub_one (mapping : List (List Char × List Char)) (slug : List Char)
    (chunk src rest : List Char) : List Char :=
  let key := (basenameP (unquote (pstrip src))).map Char.toLower
  match dget mapping key with
  | none => chunk
  | some fn =>
    "<img src=\"\x7b\x7b '".toList ++ newPath slug fn ++
      "' | relative_url \x7d\x7d\"".toList ++ rest ++ ">".toList

/-- Worker of HTML_IMG_RE.sub, with the same skip-counter device as the
markdown worker; the matched chunk handed to _sub is the prefix that the
match consumed. -/
def htmlSubAux (mapping : List (List Char × List Char)) (slug : List Char) :
    List Char → Nat → List Char
  | [], _ => []
  | _ :: rest, skip + 1 => htmlSubAux mapping slug rest skip
  | c :: rest, 0 =>
    match htmlTry (c :: rest) with
    | some (src, rst, rem) =>
      html_sub_one mapping slug
          ((c :: rest).take ((c :: rest).length - rem.length)) src rst ++
        htmlSubAux mapping slug rest ((c :: rest).length - rem.length - 1)
    | none => c :: htmlSubAux mapping slug rest 0

/-- HTML_IMG_RE.sub(_sub, text): scan left to right; each match is
replaced and scanning resumes after it. -/
def replace_html_images (text : List Char)
    (mapping : List (List Char × List Char)) (slug : List Char) :
    List Char :=
  htmlSubAux mapping slug text 0

/-- Case-insensitive prefix test (pattern first). -/
def prefixCI : List Char → List Char → Bool
  | [], _ => true
  | _ :: _, [] => false
  | a :: as, b :: bs => ciChar b a && prefixCI as bs

/-- Case-insensitive occurrence test. -/
def occursCI (n : List Char) : List Char → Bool
  | [] => prefixCI n []
  | h :: t => prefixCI n (h :: t) || occursCI n t

/-- Errors which a single archive's processing can raise (and which the
batch loop of main does not catch). -/
inductive PErr
  | badZip
  | readDirErr
deriving DecidableEq, Repr

/-- Observable outcome of process_zip on one archive: whether the
missing-markdown warning fired, which per-slug asset directory was
created, which images were copied (destination directory slug and file
name), the post file written (name and text), and the uncaught error,
if any, with all effects that happened before it. -/
structure Outcome where
  warnedNoMd : Bool
  assetDir : Option (List Char)
  copied : List (List Char × List Char)
  post : Option (List Char × List Char)
  err : Option PErr
deriving DecidableEq, Repr

/-- POST_DATE. -/
def POST_DATE : List Char := "2025-09-27".toList

/-- POST_CATEGORY. -/
def POST_CATEGORY : List Char := "writeups".toList

/-- The synthesized front matter of process_zip. -/
def frontMatterFor (title : List Char) : List Char :=
  "---\nlayout: post\ntitle: \"".toList ++ title ++
    "\"\ndate: ".toList ++ POST_DATE ++ "\ncategories: ".toList ++
    POST_CATEGORY ++ "\n---\n\n".toList

/-- process_zip on an already-extracted tree: slugify the archive stem;
find the first markdown entry (warn and stop when none); create the
asset directory; copy every image under its new name, recording two
mapping keys per image; read the markdown text (a directory entry makes
the read raise); rewrite both image syntaxes; prepend the front matter
and emit the post file name and text. -/
def process_zip (zipName : List Char) (tree : List Entry) : Outcome :=
  let slug := slugify (pstem zipName)
  match find_first_markdown tree with
  | none => ⟨true, none, [], none, none⟩
  | some md =>
    let title0 := pstem md.name
    let title := if title0 = [] then slug else title0
    let imgs := collect_images tree
    let copied := imgs.map (fun e => (slug, build_new_img_name slug e.name))
    let mapping := imgs.foldl
      (fun m e =>
        m ++ [(e.name.map Char.toLower, build_new_img_name slug e.name),
              ((sanitize_img e.name).map Char.toLower,
                build_new_img_name slug e.name)]) []
    match md.kind with
    | .dir => ⟨false, some slug, copied, none, some .readDirErr⟩
    | .file =>
      let t1 := replace_markdown_images md.text mapping slug
      let t2 := replace_html_images t1 mapping slug
      let fname := POST_DATE ++ '-' :: slug ++ ".markdown".toList
      ⟨false, some slug, copied, some (fname, frontMatterFor title ++ t2),
        none⟩

/-- The content of one archive on disk: either a zip the reader rejects,
or a readable one with its extracted tree. -/
inductive ArchData
  | malformed
  | tree (entries : List Entry)
deriving DecidableEq, Repr

/-- An archive in the batch directory. -/
structure Archive where
  name : List Char
  mtime : Nat
  data : ArchData
deriving DecidableEq, Repr

/-- Processing one archive: opening a malformed zip raises before any
effect; otherwise process_zip runs on the extracted tree. -/
def runArchive (a : Archive) : Outcome :=
  match a.data with
  | .malformed => ⟨false, none, [], none, some .badZip⟩
  | .tree t => process_zip a.name t

/-- The loop of main: `for zp in sorted(...): process_zip(zp)`.  There is
no exception handler, so an uncaught error ends the loop; the outcomes of
the archives actually reached are returned with the terminating error,
if any. -/
def runBatch : List Archive → List (List Char × Outcome) × Option PErr
  | [] => ([], none)
  | a :: rest =>
    let o := runArchive a
    match o.err with
    | some e => ([(a.name, o)], some e)
    | none =>
      let r := runBatch rest
      ((a.name, o) :: r.1, r.2)

/-- Stable insertion by modification time (Python's sorted is stable). -/
def insertByMtime (a : Archive) : List Archive → List Archive
  | [] => [a]
  | b :: bs => if a.mtime < b.mtime then a :: b :: bs else b :: insertByMtime a bs

/-- sorted(zips_dir.glob("*.zip"), key=mtime): oldest first, stable. -/
def sortByMtime (l : List Archive) : List Archive :=
  l.foldl (fun acc a => insertByMtime a acc) []

/-- main: sort the archives oldest-first and run the batch loop. -/
def main_model (dir : List Archive) : List (List Char × Outcome) × Option PErr :=
  runBatch (sortByMtime dir)

/-! ## fix_dates.py -/

/-- NEW_DATE. -/
def NEW_DATE : List Char := "2025-07-17 12:05:57 -0400".toList

/-- The literal "date:" head of the pattern. -/
def dateLit : List Char := "date:".toList

/-- The replacement text f"date:   {NEW_DATE}". -/
def newDateLine : List Char := "date:   ".toList ++ NEW_DATE

/-- Attempt `date:\s+.*$` at a line-start position: the literal "date:",
a non-empty whitespace run (\s matches newlines too), then the run of
non-newline characters; $ then holds automatically.  Returns the
remainder after the match. -/
def tryDateMatch (s : List Char) : Option (List Char) :=
  if s.take 5 = dateLit then
    if (s.drop 5).takeWhile isWs = [] then none
    else some (((s.drop 5).dropWhile isWs).dropWhile (fun c => c ≠ '\n'))
  else none

/-- Worker of the multiline date substitution, with the skip-counter
device: the match end always sits right before a newline or at the end
of input, so scanning resumes there in non-line-start state. -/
def dateSubAux : List Char → Bool → Nat → List Char
  | [], _, _ => []
  | _ :: rest, _, skip + 1 => dateSubAux rest false skip
  | c :: rest, atStart, 0 =>
    if atStart then
      match tryDateMatch (c :: rest) with
      | some rem =>
        newDateLine ++ dateSubAux rest false ((c :: rest).length - rem.length - 1)
      | none => c :: dateSubAux rest (c = '\n') 0
    else c :: dateSubAux rest (c = '\n') 0

/-- re.sub(r'^date:\s+.*$', repl, text, flags=MULTILINE): scan the text;
at each line-start position (start of string, or right after a newline)
try the pattern; on a match emit the replacement and resume at the match
end, otherwise copy one character. -/
def dateSub (s : List Char) (atStart : Bool) : List Char :=
  dateSubAux s atStart 0

/-- fix_date_in_file on a file's text: the new text, and whether the
file was rewritten ([OK]) as opposed to left byte-identical and reported
unchanged ([INFO]). -/
def fix_date_in_file (text : List Char) : List Char × Bool :=
  let nt := dateSub text true
  (nt, decide (nt ≠ text))

/-- Whether a single newline-free line matches `^date:\s+.*$` on its
own: "date:" followed by at least one whitespace character. -/
def lineDateMatch (l : List Char) : Bool :=
  l.take 5 = dateLit && (l.drop 5).takeWhile isWs ≠ []

/-- A line is span-safe when the match starting on it cannot run past
its end: it is not "date:" followed by whitespace only. -/
def spanSafe (l : List Char) : Bool :=
  !(l.take 5 = dateLit && (l.drop 5).all isWs)

/-- Join newline-free lines into a file text, each line newline-terminated. -/
def joinNl (lines : List (List Char)) : List Char :=
  (lines.map (fun l => l ++ ['\n'])).flatten

/-! ### Facts about the line classifiers -/

/-- Adjacent hyphens never occur. -/
def NoDD (l : List Char) : Prop :=
  List.Chain' (fun a b => ¬(a = '-' ∧ b = '-')) l

theorem length_dropWhile_le (p : Char → Bool) (l : List Char) :
    (l.dropWhile p).length ≤ l.length := by
  have h3 : ((l.takeWhile p) ++ (l.dropWhile p)).length = l.length := by
    rw [List.takeWhile_append_dropWhile]
  rw [List.length_append] at h3
  omega

/-- Pieces glue back: the two components of span recompose the list,
with the length equation. -/
theorem span_parts {p : Char → Bool} {l a b : List Char}
    (h : l.span p = (a, b)) :
    a ++ b = l ∧ a.length + b.length = l.length := by
  rw [List.span_eq_take_drop] at h
  have ha : a = l.takeWhile p := (congrArg Prod.fst h).symm
  have hb : b = l.dropWhile p := (congrArg Prod.snd h).symm
  subst ha
  subst hb
  refine ⟨List.takeWhile_append_dropWhile (p := p) (l := l), ?_⟩
  rw [← List.length_append, List.takeWhile_append_dropWhile]

theorem mdImgTry_length {s alt src r4 : List Char}
    (h : mdImgTry s = some (alt, src, r4)) : r4.length < s.length := by
  unfold mdImgTry at h
  split at h
  · rename_i r
    split at h
    · rename_i a1 r2 hsp
      split at h
      · rename_i a2 r4' hsp2
        split at h
        · exact absurd h (by simp)
        · obtain ⟨g1, g2⟩ := span_parts hsp
          obtain ⟨g3, g4⟩ := span_parts hsp2
          have hr : r4' = r4 := congrArg (fun z => z.2.2) (Option.some.inj h)
          subst hr
          simp only [List.length_cons] at g2 g4 ⊢
          omega
      · exact absurd h (by simp)
    · exact absurd h (by simp)
  · exact absurd h (by simp)

theorem checkSrcAt_length {t src rest rem : List Char}
    (h : checkSrcAt t = some (src, rest, rem)) : rem.length < t.length := by
  unfold checkSrcAt at h
  split at h
  · rename_i c1 c2 c3 c4 q r
    split at h
    · split at h
      · rename_i a1 q2 r2 hsp
        split at h
        · exact absurd h (by simp)
        · split at h
          · rename_i a2 rem' hsp2
            obtain ⟨g1, g2⟩ := span_parts hsp
            obtain ⟨g3, g4⟩ := span_parts hsp2
            have hr : rem' = rem := congrArg (fun z => z.2.2) (Option.some.inj h)
            subst hr
            simp only [List.length_cons] at g2 g4 ⊢
            omega
          · exact absurd h (by simp)
      · exact absurd h (by simp)
    · exact absurd h (by simp)
  · exact absurd h (by simp)

theorem htmlAfterLt_length {s r1 : List Char} (h : htmlAfterLt s = some r1) :
    r1.length ≤ s.length := by
  unfold htmlAfterLt at h
  split at h
  · rename_i c1 c2 c3 rest
    split at h
    · split at h
      · exact absurd h (by simp)
      · have hr : r1 = rest.dropWhile isWs := (Option.some.inj h).symm
        subst hr
        have h3 := length_dropWhile_le isWs rest
        simp only [List.length_cons]
        omega
    · exact absurd h (by simp)
  · exact absurd h (by simp)

theorem htmlScan_length {src rest rem r1 : List Char} :
    ∀ {n : Nat}, htmlScan n r1 = some (src, rest, rem) →
      rem.length < r1.length := by
  intro n
  induction n with
  | zero =>
    intro h
    rw [htmlScan] at h
    have h1 := checkSrcAt_length h
    have h2 : (r1.drop 0).length ≤ r1.length := by simp
    omega
  | succ n' ih =>
    intro h
    rw [htmlScan] at h
    cases hc : checkSrcAt (r1.drop (n' + 1)) with
    | none =>
      rw [hc] at h
      exact ih h
    | some res =>
      rw [hc] at h
      have hr : res = (src, rest, rem) := Option.some.inj h
      subst hr
      have h1 := checkSrcAt_length hc
      have h2 : (r1.drop (n' + 1)).length ≤ r1.length := by simp
      omega

theorem htmlTry_length {s src rest rem : List Char}
    (h : htmlTry s = some (src, rest, rem)) : rem.length < s.length := by
  unfold htmlTry at h
  split at h
  · rename_i r0
    split at h
    · exact absurd h (by simp)
    · rename_i r1 ha
      have h1 := htmlScan_length h
      have h2 := htmlAfterLt_length ha
      simp only [List.length_cons]
      omega
  · exact absurd h (by simp)

theorem tryDateMatch_length {s rem : List Char}
    (h : tryDateMatch s = some rem) : rem.length < s.length := by
  unfold tryDateMatch at h
  by_cases h5 : s.take 5 = dateLit
  · rw [if_pos h5] at h
    by_cases hw : (s.drop 5).takeWhile isWs = []
    · rw [if_pos hw] at h
      exact absurd h (by simp)
    · rw [if_neg hw] at h
      have hr : rem = ((s.drop 5).dropWhile isWs).dropWhile
          (fun c => c ≠ '\n') := (Option.some.inj h).symm
      have hlen5 : 5 ≤ s.length := by
        by_contra hlt
        have : s.take 5 = s := List.take_of_length_le (by omega)
        rw [this] at h5
        have := congrArg List.length h5
        simp [dateLit] at this
        omega
      have h1 : ((s.drop 5).dropWhile isWs).length < (s.drop 5).length := by
        have ht : (((s.drop 5).takeWhile isWs) ++
            ((s.drop 5).dropWhile isWs)).length = (s.drop 5).length := by
          rw [List.takeWhile_append_dropWhile]
        rw [List.length_append] at ht
        have : 0 < ((s.drop 5).takeWhile isWs).length :=
          List.length_pos.mpr hw
        omega
      have h2 : (((s.drop 5).dropWhile isWs).dropWhile
          (fun c => c ≠ '\n')).length ≤ ((s.drop 5).dropWhile isWs).length := by
        have ht : ((((s.drop 5).dropWhile isWs).takeWhile (fun c => c ≠ '\n')) ++
            (((s.drop 5).dropWhile isWs).dropWhile (fun c => c ≠ '\n'))).length =
            ((s.drop 5).dropWhile isWs).length := by
          rw [List.takeWhile_append_dropWhile]
        rw [List.length_append] at ht
        omega
      rw [hr]
      have h3 : (s.drop 5).length = s.length - 5 := by simp
      omega
  · rw [if_neg h5] at h
    exact absurd h (by simp)

theorem pstrip_concat_nl (l : List Char) : pstrip (l ++ ['\n']) = pstrip l := by
  have h : isWs '\n' = true := by decide
  simp [pstrip, rstripW, List.dropWhile_cons, h]

theorem pstrip_ensureNl (l : Line) : pstrip (ensureNl l) = pstrip l := by
  unfold ensureNl
  split
  · rfl
  · exact pstrip_concat_nl l

theorem isFence_ensureNl (l : Line) : isFence (ensureNl l) = isFence l := by
  simp [isFence, pstrip_ensureNl]

theorem isImage_ensureNl (l : Line) : isImage (ensureNl l) = isImage l := by
  simp [isImage, pstrip_ensureNl]

theorem isHeader_ensureNl (l : Line) : isHeader (ensureNl l) = isHeader l := by
  simp only [isHeader, pstrip_ensureNl]

theorem isBlankL_ensureNl (l : Line) : isBlankL (ensureNl l) = isBlankL l := by
  simp [isBlankL, pstrip_ensureNl]

theorem ensureNl_ensureNl (l : Line) : ensureNl (ensureNl l) = ensureNl l := by
  by_cases h : l.getLast? = some '\n'
  · simp [ensureNl, h]
  · simp [ensureNl, h, List.getLast?_concat]

theorem isBlankL_false_of_imgheader {l : Line}
    (h : (isImage l || isHeader l) = true) : isBlankL l = false := by
  by_cases hb : pstrip l = []
  · simp [isImage, isHeader, hb, imgSearch] at h
  · simp [isBlankL, hb]

theorem isBlankL_false_of_fence {l : Line} (h : isFence l = true) :
    isBlankL l = false := by
  by_cases hb : pstrip l = []
  · rw [isFence, hb] at h
    simp [fenceTicks, fenceTildes] at h
  · simp [isBlankL, hb]

theorem isFence_false_of_blank {l : Line} (h : isBlankL l = true) :
    isFence l = false := by
  by_cases hf : isFence l = true
  · rw [isBlankL_false_of_fence hf] at h
    exact absurd h (by simp)
  · simpa using hf

theorem imgheader_false_of_blank {l : Line} (h : isBlankL l = true) :
    (isImage l || isHeader l) = false := by
  by_cases hih : (isImage l || isHeader l) = true
  · rw [isBlankL_false_of_imgheader hih] at h
    exact absurd h (by simp)
  · simpa using hih

/-- Unfolding equation for the loop body. -/
theorem go_cons (c : Bool) (last : Option Bool) (l : Line) (rest : List Line) :
    go c last (l :: rest) =
      if isFence l then
        l :: go (!c) (some (isBlankL l)) rest
      else if c then
        l :: go c (some (isBlankL l)) rest
      else if isImage l || isHeader l then
        (if last = some false then [nlL] else []) ++
          (ensureNl l ::
            if nextNonblank rest then
              nlL :: go c (some true) rest
            else
              go c (some (isBlankL (ensureNl l))) rest)
      else if isBlankL l then
        if last = some true then go c last rest
        else nlL :: go c (some true) rest
      else
        ensureNl l :: go c (some (isBlankL (ensureNl l))) rest := rfl

/-- When the next line is blank and the last emitted one was non-blank,
the processor emits exactly one normalised blank line. -/
theorem go_blank_head {r : Line} (hb : isBlankL r = true) (c : Bool)
    (hc : ¬(c = true)) (rest : List Line) :
    go c (some false) (r :: rest) = nlL :: go c (some true) rest := by
  rw [go_cons, if_neg (by simp [isFence_false_of_blank hb]), if_neg hc,
    if_neg (by simp [imgheader_false_of_blank hb]), if_pos hb, if_neg (by simp)]

/-- The content-line pass is idempotent: replaying its output from the
same state reproduces it unchanged. -/
theorem go_idem (ls : List Line) : ∀ (c : Bool) (last : Option Bool),
    go c last (go c last ls) = go c last ls := by
  induction ls with
  | nil => intro c last; rfl
  | cons l rest ih =>
    intro c last
    by_cases hf : isFence l = true
    · rw [go_cons, if_pos hf, go_cons, if_pos hf, ih]
    · by_cases hc : c = true
      · rw [go_cons, if_neg hf, if_pos hc, go_cons, if_neg hf, if_pos hc, ih]
      · by_cases hih : (isImage l || isHeader l) = true
        · -- image / header line
          have hbl : isBlankL l = false := isBlankL_false_of_imgheader hih
          have hfe : isFence (ensureNl l) = false := by
            simp [isFence_ensureNl]; simpa using hf
          have hihe : (isImage (ensureNl l) || isHeader (ensureNl l)) = true := by
            rw [isImage_ensureNl, isHeader_ensureNl]; exact hih
          have hble : isBlankL (ensureNl l) = false := by
            rw [isBlankL_ensureNl]; exact hbl
          rw [go_cons, if_neg hf, if_neg hc, if_pos hih]
          by_cases hnb : nextNonblank rest = true
          · rw [if_pos hnb]
            by_cases hl : last = some false
            · rw [if_pos hl]
              have : ([nlL] ++ ensureNl l :: nlL :: go c (some true) rest) =
                  nlL :: ensureNl l :: nlL :: go c (some true) rest := by simp
              rw [this, go_cons,
                if_neg (by decide : ¬(isFence nlL = true)), if_neg hc,
                if_neg (by decide : ¬((isImage nlL || isHeader nlL) = true)),
                if_pos (by decide : isBlankL nlL = true), if_neg (by rw [hl]; simp)]
              rw [go_cons, if_neg (by simp [hfe]), if_neg hc, if_pos hihe,
                if_neg (by simp : ¬((some true : Option Bool) = some false))]
              rw [if_neg (show ¬(nextNonblank
                (nlL :: go c (some true) rest) = true) by
                  simp [nextNonblank]; decide)]
              rw [ensureNl_ensureNl, hble,
                go_blank_head (by decide) c hc, ih]
              simp
            · rw [if_neg hl]
              simp only [List.nil_append]
              rw [go_cons, if_neg (by simp [hfe]), if_neg hc, if_pos hihe,
                if_neg hl]
              rw [if_neg (show ¬(nextNonblank
                (nlL :: go c (some true) rest) = true) by
                  simp [nextNonblank]; decide)]
              rw [ensureNl_ensureNl, hble,
                go_blank_head (by decide) c hc, ih]
              simp
          · -- next original line blank or absent
            rw [if_neg hnb, isBlankL_ensureNl, hbl]
            have hreplay := ih c (some false)
            have hnb2 : nextNonblank (go c (some false) rest) = false := by
              cases rest with
              | nil => rfl
              | cons r rest' =>
                have hbr : isBlankL r = true := by
                  simp [nextNonblank] at hnb
                  exact hnb
                rw [go_blank_head hbr c hc]
                simp [nextNonblank]; decide
            by_cases hl : last = some false
            · rw [if_pos hl]
              have : ([nlL] ++ ensureNl l :: go c (some false) rest) =
                  nlL :: ensureNl l :: go c (some false) rest := by simp
              rw [this, go_cons,
                if_neg (by decide : ¬(isFence nlL = true)), if_neg hc,
                if_neg (by decide : ¬((isImage nlL || isHeader nlL) = true)),
                if_pos (by decide : isBlankL nlL = true), if_neg (by rw [hl]; simp)]
              rw [go_cons, if_neg (by simp [hfe]), if_neg hc, if_pos hihe,
                if_neg (by simp : ¬((some true : Option Bool) = some false)),
                if_neg (by simp [hnb2]), ensureNl_ensureNl, hble,
                hreplay]
              simp
            · rw [if_neg hl]
              simp only [List.nil_append]
              rw [go_cons, if_neg (by simp [hfe]), if_neg hc, if_pos hihe,
                if_neg hl, if_neg (by simp [hnb2]), ensureNl_ensureNl,
                hble, hreplay]
              simp
        · by_cases hbl : isBlankL l = true
          · -- blank line
            rw [go_cons, if_neg hf, if_neg hc, if_neg hih, if_pos hbl]
            by_cases hl : last = some true
            · rw [if_pos hl, ih]
            · rw [if_neg hl, go_cons,
                if_neg (by decide : ¬(isFence nlL = true)), if_neg hc,
                if_neg (by decide : ¬((isImage nlL || isHeader nlL) = true)),
                if_pos (by decide : isBlankL nlL = true), if_neg hl, ih]
          · -- plain text line
            have hfe : isFence (ensureNl l) = false := by
              simp [isFence_ensureNl]; simpa using hf
            have hihe : ¬((isImage (ensureNl l) || isHeader (ensureNl l)) = true) := by
              rw [isImage_ensureNl, isHeader_ensureNl]; exact hih
            have hble : ¬(isBlankL (ensureNl l) = true) := by
              rw [isBlankL_ensureNl]; exact hbl
            rw [go_cons, if_neg hf, if_neg hc, if_neg hih,
              if_neg hbl, go_cons, if_neg (by simp [hfe]), if_neg hc,
              if_neg hihe, if_neg hble, ensureNl_ensureNl, ih]

/-! ### Front-matter split lemmas -/

theorem findClose_eq_none {t : List Line} (h : ∀ l ∈ t, pstrip l ≠ dashes) :
    findClose t = none := by
  induction t with
  | nil => rfl
  | cons l rest ih =>
    simp only [findClose]
    rw [if_neg (h l (by simp)), ih (fun x hx => h x (by simp [hx]))]
    rfl

theorem none_of_findClose {t : List Line} (h : findClose t = none) :
    ∀ l ∈ t, pstrip l ≠ dashes := by
  induction t with
  | nil => simp
  | cons l rest ih =>
    simp only [findClose] at h
    by_cases hd : pstrip l = dashes
    · rw [if_pos hd] at h
      exact absurd h (by simp)
    · rw [if_neg hd] at h
      intro x hx
      rcases List.mem_cons.mp hx with h1 | h2
      · rw [h1]; exact hd
      · exact ih (by
          cases hfc : findClose rest with
          | none => rfl
          | some p => rw [hfc] at h; simp at h) x h2

theorem findClose_append {i : List Line} {cl : Line} (X : List Line)
    (hi : ∀ l ∈ i, pstrip l ≠ dashes) (hcl : pstrip cl = dashes) :
    findClose (i ++ cl :: X) = some (i ++ [cl], X) := by
  induction i with
  | nil => simp [findClose, hcl]
  | cons x i' ih =>
    have hx := hi x (by simp)
    have ih' := ih (fun y hy => hi y (by simp [hy]))
    simp only [List.cons_append, findClose, List.append_eq]
    rw [if_neg hx, ih']
    rfl

theorem findClose_shape {t ft rest : List Line}
    (h : findClose t = some (ft, rest)) :
    ∃ i cl, ft = i ++ [cl] ∧ t = i ++ cl :: rest ∧
      (∀ l ∈ i, pstrip l ≠ dashes) ∧ pstrip cl = dashes := by
  induction t generalizing ft with
  | nil => simp [findClose] at h
  | cons l t' ih =>
    simp only [findClose] at h
    by_cases hd : pstrip l = dashes
    · rw [if_pos hd] at h
      obtain ⟨h1, h2⟩ := Prod.mk.injEq .. ▸ Option.some.injEq .. ▸ h
      refine ⟨[], l, ?_, ?_, by simp, hd⟩
      · simp [← h1]
      · simp [← h1, h2]
    · rw [if_neg hd] at h
      cases hfc : findClose t' with
      | none => rw [hfc] at h; simp at h
      | some p =>
        rw [hfc] at h
        have h' : (l :: p.1, p.2) = (ft, rest) := Option.some.inj h
        have hft : ft = l :: p.1 := (congrArg Prod.fst h').symm
        have hrest : p.2 = rest := congrArg Prod.snd h'
        obtain ⟨i, cl, e1, e2, e3, e4⟩ :=
          ih (show findClose t' = some (p.1, rest) by rw [hfc, ← hrest])
        refine ⟨l :: i, cl, ?_, ?_, ?_, e4⟩
        · rw [hft, e1]
          rfl
        · simp [e2]
        · intro x hx
          rcases List.mem_cons.mp hx with h1 | h2
          · rw [h1]; exact hd
          · exact e3 x h2

/-! ### Shape of the processor output -/

/-- Every line emitted by the content pass either strips to empty
(it is an inserted or normalised blank) or strips to the same value
as some input line. -/
theorem go_mem : ∀ (ls : List Line) (c : Bool) (st : Option Bool) (x : Line),
    x ∈ go c st ls → pstrip x = [] ∨ ∃ y ∈ ls, pstrip x = pstrip y := by
  intro ls
  induction ls with
  | nil => intro c st x hx; simp [go] at hx
  | cons l rest ih =>
    intro c st x hx
    have step : ∀ (c' : Bool) (st' : Option Bool), x ∈ go c' st' rest →
        pstrip x = [] ∨ ∃ y ∈ l :: rest, pstrip x = pstrip y := by
      intro c' st' hmem
      rcases ih c' st' x hmem with h1 | ⟨y, hy, he⟩
      · exact Or.inl h1
      · exact Or.inr ⟨y, by simp [hy], he⟩
    rw [go_cons] at hx
    by_cases hf : isFence l = true
    · rw [if_pos hf] at hx
      rcases List.mem_cons.mp hx with h1 | h2
      · exact Or.inr ⟨l, by simp, by rw [h1]⟩
      · exact step _ _ h2
    · rw [if_neg hf] at hx
      by_cases hc : c = true
      · rw [if_pos hc] at hx
        rcases List.mem_cons.mp hx with h1 | h2
        · exact Or.inr ⟨l, by simp, by rw [h1]⟩
        · exact step _ _ h2
      · rw [if_neg hc] at hx
        by_cases hih : (isImage l || isHeader l) = true
        · rw [if_pos hih] at hx
          rcases List.mem_append.mp hx with h1 | h2
          · left
            have : x = nlL := by
              by_cases hl : st = some false
              · rw [if_pos hl] at h1; simpa using h1
              · rw [if_neg hl] at h1; simp at h1
            rw [this]; decide
          · rcases List.mem_cons.mp h2 with h3 | h4
            · exact Or.inr ⟨l, by simp, by rw [h3]; exact pstrip_ensureNl l⟩
            · by_cases hnb : nextNonblank rest = true
              · rw [if_pos hnb] at h4
                rcases List.mem_cons.mp h4 with h5 | h6
                · left; rw [h5]; decide
                · exact step _ _ h6
              · rw [if_neg hnb] at h4
                exact step _ _ h4
        · rw [if_neg hih] at hx
          by_cases hb : isBlankL l = true
          · rw [if_pos hb] at hx
            by_cases hl : st = some true
            · rw [if_pos hl] at hx
              exact step _ _ hx
            · rw [if_neg hl] at hx
              rcases List.mem_cons.mp hx with h1 | h2
              · left; rw [h1]; decide
              · exact step _ _ h2
          · rw [if_neg hb] at hx
            rcases List.mem_cons.mp hx with h1 | h2
            · exact Or.inr ⟨l, by simp, by rw [h1]; exact pstrip_ensureNl l⟩
            · exact step _ _ h2

/-- The first output line of the content pass strips either to the same
value as the first input line, or to empty. -/
theorem go_head (h : Line) (t : List Line) :
    ∃ x xs, go false none (h :: t) = x :: xs ∧
      (pstrip x = pstrip h ∨ pstrip x = []) := by
  rw [go_cons]
  by_cases hf : isFence h = true
  · rw [if_pos hf]
    exact ⟨h, _, rfl, Or.inl rfl⟩
  · rw [if_neg hf, if_neg (by simp : ¬(false = true))]
    by_cases hih : (isImage h || isHeader h) = true
    · rw [if_pos hih, if_neg (by simp : ¬((none : Option Bool) = some false))]
      by_cases hnb : nextNonblank t = true
      · rw [if_pos hnb]
        simp only [List.nil_append]
        exact ⟨_, _, rfl, Or.inl (pstrip_ensureNl h)⟩
      · rw [if_neg hnb]
        simp only [List.nil_append]
        exact ⟨_, _, rfl, Or.inl (pstrip_ensureNl h)⟩
    · rw [if_neg hih]
      by_cases hb : isBlankL h = true
      · rw [if_pos hb, if_neg (by simp : ¬((none : Option Bool) = some true))]
        exact ⟨nlL, _, rfl, Or.inr (by decide)⟩
      · rw [if_neg hb]
        exact ⟨ensureNl h, _, rfl, Or.inl (pstrip_ensureNl h)⟩

/-- A line stripping to '---' is classified as plain text by the
content pass. -/
theorem go_dashes_head {h : Line} (hd : pstrip h = dashes) (t : List Line) :
    go false none (h :: t) = ensureNl h :: go false (some false) t := by
  have hf : isFence h = false := by simp [isFence, hd]; decide
  have him : isImage h = false := by simp [isImage, hd]; decide
  have hhe : isHeader h = false := by simp only [isHeader, hd]; decide
  have hb : isBlankL h = false := by simp [isBlankL, hd, dashes]
  rw [go_cons, if_neg (by simp [hf]), if_neg (by simp : ¬(false = true)),
    if_neg (by simp [him, hhe]), if_neg (by simp [hb]),
    isBlankL_ensureNl, hb]

theorem appendCss_of_marker {lines : List Line}
    (h : subStr needle lines.flatten = true) :
    append_css_link_if_missing lines = lines := by
  simp [append_css_link_if_missing, h]

/-! ### Claim C1: idempotence of the reformatter -/

/-- C1 (counterexample): the full transformation is not idempotent.  On
the single-line file "x\n" the first run appends two blank lines and
the stylesheet line; the second run collapses the two blank lines into
one, so it differs from the first run's output and writes again. -/
theorem c1_counterexample :
    transform (transform ["x\n".toList]) ≠ transform ["x\n".toList] := by decide

/-- C1 (amended): the transformation is idempotent for every file whose
reformatted content already contains the marker substring, i.e. whenever
the first run does not append the stylesheet line.  (When the line is
appended, the second run additionally collapses the two blank lines
inserted before it, so the claim fails as stated.) -/
theorem c1_reformatter_idempotent_with_marker (ls : List Line)
    (h : subStr needle
      (process_content_lines (split_front_matter ls).2).flatten = true) :
    transform (transform ls) = transform ls := by
  simp only [process_content_lines] at h
  cases ls with
  | nil => exact absurd h (by decide)
  | cons hd t =>
    by_cases hdash : pstrip hd = dashes
    · cases hfc : findClose t with
      | some p =>
        rcases p with ⟨ft, rest⟩
        have hsfm : split_front_matter (hd :: t) = (hd :: ft, rest) := by
          simp [split_front_matter, hdash, hfc]
        rw [hsfm] at h
        obtain ⟨i, cl, e1, e2, e3, e4⟩ := findClose_shape hfc
        have t1 : transform (hd :: t) = (hd :: ft) ++ go false none rest := by
          simp only [transform, hsfm, process_content_lines]
          rw [appendCss_of_marker h]
        have hsfm2 : split_front_matter ((hd :: ft) ++ go false none rest)
            = (hd :: ft, go false none rest) := by
          simp only [List.cons_append, split_front_matter]
          rw [if_pos hdash, e1,
            show (i ++ [cl]) ++ go false none rest =
              i ++ cl :: go false none rest by simp,
            findClose_append _ e3 e4]
        rw [t1]
        simp only [transform, hsfm2, process_content_lines]
        rw [go_idem, appendCss_of_marker h]
      | none =>
        have hsfm : split_front_matter (hd :: t) = ([], hd :: t) := by
          simp [split_front_matter, hdash, hfc]
        rw [hsfm] at h
        have t1 : transform (hd :: t) = go false none (hd :: t) := by
          simp only [transform, hsfm, process_content_lines]
          rw [appendCss_of_marker h]
          simp
        have hnone : findClose (go false (some false) t) = none := by
          apply findClose_eq_none
          intro x hx
          rcases go_mem t false (some false) x hx with h1 | ⟨y, hy, he⟩
          · rw [h1]; decide
          · rw [he]; exact none_of_findClose hfc y hy
        have hsfm2 : split_front_matter (go false none (hd :: t)) =
            ([], go false none (hd :: t)) := by
          rw [show go false none (hd :: t) =
            ensureNl hd :: go false (some false) t from go_dashes_head hdash t]
          simp only [split_front_matter]
          rw [if_pos (by rw [pstrip_ensureNl]; exact hdash), hnone]
        rw [t1]
        simp only [transform, hsfm2, process_content_lines]
        rw [go_idem, appendCss_of_marker h]
        simp
    · have hsfm : split_front_matter (hd :: t) = ([], hd :: t) := by
        simp [split_front_matter, hdash]
      rw [hsfm] at h
      have t1 : transform (hd :: t) = go false none (hd :: t) := by
        simp only [transform, hsfm, process_content_lines]
        rw [appendCss_of_marker h]
        simp
      obtain ⟨x, xs, hx, hps⟩ := go_head hd t
      have hxdash : ¬(pstrip x = dashes) := by
        rcases hps with h1 | h1
        · rw [h1]; exact hdash
        · rw [h1]; decide
      have hsfm2 : split_front_matter (go false none (hd :: t)) =
          ([], go false none (hd :: t)) := by
        rw [show go false none (hd :: t) = x :: xs from hx]
        simp [split_front_matter, hxdash]
      rw [t1]
      simp only [transform, hsfm2, process_content_lines]
      rw [go_idem, appendCss_of_marker h]
      simp

/-- C1 witness: a file whose content carries the marker is reproduced
unchanged by the second run. -/
theorem c1_witness :
    subStr needle (process_content_lines
      (split_front_matter ["see imagesstyle.css\n".toList]).2).flatten = true ∧
    transform (transform ["see imagesstyle.css\n".toList]) =
      transform ["see imagesstyle.css\n".toList] :=
  ⟨by decide, c1_reformatter_idempotent_with_marker _ (by decide)⟩

/-! ### Claim C2: the marker check ignores the front matter -/

/-- C2 (counterexample): a file whose front matter contains the marker
substring while its content does not still gets the stylesheet line
appended: the search is over the reformatted content only, not the
whole document. -/
theorem c2_counterexample :
    subStr needle (split_front_matter
      ["---\n".toList, "x: imagesstyle.css\n".toList, "---\n".toList,
        "hello\n".toList]).1.flatten = true ∧
    transform
      ["---\n".toList, "x: imagesstyle.css\n".toList, "---\n".toList,
        "hello\n".toList] =
      ["---\n".toList, "x: imagesstyle.css\n".toList, "---\n".toList,
        "hello\n".toList, nlL, nlL, cssLine ++ ['\n']] :=
  ⟨by decide, by decide⟩

/-- C2 (amended): the stylesheet-line decision looks only at the content
after the front-matter split: if the marker is absent from the
reformatted content the line is appended (the output ends with it, even
when the front matter contains the marker), and if the marker is present
in the reformatted content nothing is appended. -/
theorem c2_css_append_checks_content_only (ls : List Line) :
    (subStr needle
        (process_content_lines (split_front_matter ls).2).flatten = false →
      (transform ls).getLast? = some (cssLine ++ ['\n'])) ∧
    (subStr needle
        (process_content_lines (split_front_matter ls).2).flatten = true →
      transform ls = (split_front_matter ls).1 ++
        process_content_lines (split_front_matter ls).2) := by
  constructor
  · intro h
    simp only [transform, append_css_link_if_missing, h]
    rw [if_neg (by simp : ¬(false = true))]
    rw [show ∀ (A B : List Line) (pad : List Line),
        A ++ (B ++ pad ++ [nlL, cssLine ++ ['\n']]) =
          (A ++ (B ++ pad) ++ [nlL]) ++ [cssLine ++ ['\n']] from
        fun A B pad => by simp, List.getLast?_concat]
  · intro h
    simp only [transform]
    rw [appendCss_of_marker h]

/-- C2 witness: on a marker-free file the output ends with the stylesheet
line; on a file whose content holds the marker nothing is appended. -/
theorem c2_witness :
    (transform ["hi\n".toList]).getLast? = some (cssLine ++ ['\n']) ∧
    transform ["uses imagesstyle.css\n".toList] =
      (split_front_matter ["uses imagesstyle.css\n".toList]).1 ++
        process_content_lines
          (split_front_matter ["uses imagesstyle.css\n".toList]).2 :=
  ⟨(c2_css_append_checks_content_only _).1 (by decide),
   (c2_css_append_checks_content_only _).2 (by decide)⟩

/-! ### Claim C9: fenced code regions pass through verbatim -/

theorem fenceCount_cons (x : Line) (a : List Line) :
    fenceCount (x :: a) =
      if isFence x then fenceCount a + 1 else fenceCount a := by
  simp only [fenceCount, List.filter_cons]
  split
  · simp
  · rfl

/-- Inside a code fence every line passes through unchanged, whatever
the blank-line state. -/
theorem go_incode (b : List Line) : ∀ (st : Option Bool) (xs : List Line),
    (∀ l ∈ b, isFence l = false) →
    ∃ st2, go true st (b ++ xs) = b ++ go true st2 xs := by
  induction b with
  | nil => intro st xs _; exact ⟨st, rfl⟩
  | cons l b' ih =>
    intro st xs hb
    have hf := hb l (by simp)
    obtain ⟨st2, h2⟩ := ih (some (isBlankL l)) xs (fun y hy => hb y (by simp [hy]))
    refine ⟨st2, ?_⟩
    simp only [List.cons_append]
    rw [go_cons, if_neg (by simp [hf]), if_pos rfl, h2]

theorem parity_flip (n : Nat) :
    decide ((n + 1) % 2 = 1) = !decide (n % 2 = 1) := by
  rcases Nat.mod_two_eq_zero_or_one n with h | h <;> simp [Nat.add_mod, h]

/-- Processing a ++ [f] ++ b ++ [g] ++ c₂ where f and g are fence lines,
b is fence-free and a holds an even number of fence lines: the fenced
region is reproduced verbatim and contiguously. -/
theorem go_split_fence (f g : Line) (b c2 : List Line)
    (hf : isFence f = true) (hg : isFence g = true)
    (hb : ∀ l ∈ b, isFence l = false) :
    ∀ (a : List Line) (cc : Bool) (st : Option Bool),
      cc = decide (fenceCount a % 2 = 1) →
      ∃ u, go cc st (a ++ f :: (b ++ g :: c2)) =
        u ++ (f :: (b ++ g :: go false (some (isBlankL g)) c2)) := by
  intro a
  induction a with
  | nil =>
    intro cc st hpar
    have hcc : cc = false := by simpa [fenceCount] using hpar
    subst hcc
    refine ⟨[], ?_⟩
    simp only [List.nil_append]
    rw [go_cons, if_pos hf]
    obtain ⟨st2, h2⟩ := go_incode b (some (isBlankL f)) (g :: c2) hb
    rw [show (!false) = true from rfl, h2, go_cons, if_pos hg]
    rw [show (!true) = false from rfl]
  | cons x a' ih =>
    intro cc st hpar
    by_cases hx : isFence x = true
    · have hpar' : (!cc) = decide (fenceCount a' % 2 = 1) := by
        rw [hpar, fenceCount_cons, if_pos (by simp [hx]), parity_flip,
          Bool.not_not]
      obtain ⟨u', hu'⟩ := ih (!cc) (some (isBlankL x)) hpar'
      refine ⟨x :: u', ?_⟩
      simp only [List.cons_append]
      rw [go_cons, if_pos hx, hu']
    · have hpar' : cc = decide (fenceCount a' % 2 = 1) := by
        rw [hpar, fenceCount_cons, if_neg (by simp [hx])]
      by_cases hc : cc = true
      · obtain ⟨u', hu'⟩ := ih cc (some (isBlankL x)) hpar'
        refine ⟨x :: u', ?_⟩
        simp only [List.cons_append]
        rw [go_cons, if_neg hx, if_pos hc, hu']
      · by_cases hih : (isImage x || isHeader x) = true
        · by_cases hnb : nextNonblank (a' ++ f :: (b ++ g :: c2)) = true
          · obtain ⟨u', hu'⟩ := ih cc (some true) hpar'
            refine ⟨(if st = some false then [nlL] else []) ++
              [ensureNl x, nlL] ++ u', ?_⟩
            simp only [List.cons_append]
            rw [go_cons, if_neg hx, if_neg hc, if_pos hih, if_pos hnb, hu']
            simp
          · obtain ⟨u', hu'⟩ := ih cc (some (isBlankL (ensureNl x))) hpar'
            refine ⟨(if st = some false then [nlL] else []) ++
              [ensureNl x] ++ u', ?_⟩
            simp only [List.cons_append]
            rw [go_cons, if_neg hx, if_neg hc, if_pos hih, if_neg hnb, hu']
            simp
        · by_cases hbx : isBlankL x = true
          · by_cases hst : st = some true
            · obtain ⟨u', hu'⟩ := ih cc st hpar'
              refine ⟨u', ?_⟩
              simp only [List.cons_append]
              rw [go_cons, if_neg hx, if_neg hc, if_neg hih, if_pos hbx,
                if_pos hst, hu']
            · obtain ⟨u', hu'⟩ := ih cc (some true) hpar'
              refine ⟨nlL :: u', ?_⟩
              simp only [List.cons_append]
              rw [go_cons, if_neg hx, if_neg hc, if_neg hih, if_pos hbx,
                if_neg hst, hu']
          · obtain ⟨u', hu'⟩ := ih cc (some (isBlankL (ensureNl x))) hpar'
            refine ⟨ensureNl x :: u', ?_⟩
            simp only [List.cons_append]
            rw [go_cons, if_neg hx, if_neg hc, if_neg hih, if_neg hbx, hu']

/-- C9: every line lying inside a fenced code region is copied to the
reformatter's output byte-for-byte and contiguously: the whole region
f :: b ++ [g] reappears verbatim in the output, with no blank-line
insertion, collapsing, heading or image handling applied to it. -/
theorem c9_fenced_region_verbatim (a b c2 : List Line) (f g : Line)
    (hf : isFence f = true) (hg : isFence g = true)
    (hb : ∀ l ∈ b, isFence l = false) (ha : fenceCount a % 2 = 0) :
    ∃ u v, process_content_lines (a ++ f :: (b ++ g :: c2)) =
      u ++ (f :: (b ++ g :: v)) := by
  have hpar : (false : Bool) = decide (fenceCount a % 2 = 1) := by
    simp [ha]
  obtain ⟨u, hu⟩ := go_split_fence f g b c2 hf hg hb a false none hpar
  exact ⟨u, go false (some (isBlankL g)) c2, hu⟩

/-- C9 witness: a heading-like line inside a fence stays glued to its
neighbours. -/
theorem c9_witness :
    ∃ u v, process_content_lines
        ("```\n".toList :: ("### x\n".toList :: "a\n".toList :: []) ++
          ("```\n".toList :: [])) =
      u ++ ("```\n".toList :: (("### x\n".toList :: "a\n".toList :: []) ++
        ("```\n".toList :: v))) := by
  have := c9_fenced_region_verbatim [] ["### x\n".toList, "a\n".toList] []
    "```\n".toList "```\n".toList (by decide) (by decide)
    (by decide) (by decide)
  simpa using this

/-! ### Claim C7: slugify -/

theorem hyphenAux_chars : ∀ (b : Bool) (l : List Char) (c : Char),
    c ∈ hyphenAux b l → isSlugChar c = true ∨ c = '-' := by
  intro b l
  induction l generalizing b with
  | nil => intro c hc; simp [hyphenAux] at hc
  | cons x cs ih =>
    intro c hc
    simp only [hyphenAux] at hc
    by_cases hx : isSlugChar x = true
    · rw [if_pos hx] at hc
      rcases List.mem_cons.mp hc with h1 | h2
      · exact Or.inl (h1 ▸ hx)
      · exact ih false c h2
    · rw [if_neg hx] at hc
      by_cases hb : b = true
      · rw [if_pos hb] at hc
        exact ih true c hc
      · rw [if_neg hb] at hc
        rcases List.mem_cons.mp hc with h1 | h2
        · exact Or.inr h1
        · exact ih true c h2

theorem hyphenAux_true_head : ∀ (l : List Char),
    (hyphenAux true l).head? ≠ some '-' := by
  intro l
  induction l with
  | nil => simp [hyphenAux]
  | cons x cs ih =>
    simp only [hyphenAux]
    by_cases hx : isSlugChar x = true
    · rw [if_pos hx]
      intro hc
      have : x = '-' := by simpa using hc
      rw [this] at hx
      exact absurd hx (by decide)
    · rw [if_neg hx]
      simpa using ih

theorem hyphenAux_noDD : ∀ (b : Bool) (l : List Char),
    NoDD (hyphenAux b l) := by
  intro b l
  induction l generalizing b with
  | nil => simp [hyphenAux, NoDD]
  | cons x cs ih =>
    simp only [hyphenAux]
    by_cases hx : isSlugChar x = true
    · rw [if_pos hx]
      refine List.chain'_cons'.mpr ⟨?_, ih false⟩
      intro y _ hxy
      obtain ⟨h1, _⟩ := hxy
      rw [h1] at hx
      exact absurd hx (by decide)
    · rw [if_neg hx]
      by_cases hb : b = true
      · rw [if_pos hb]
        exact ih true
      · rw [if_neg hb]
        refine List.chain'_cons'.mpr ⟨?_, ih true⟩
        intro y hy hxy
        exact hyphenAux_true_head cs (by rw [hy, hxy.2])

theorem dropWhile_head? {p : Char → Bool} {l : List Char} {x : Char}
    (h : (l.dropWhile p).head? = some x) : p x = false := by
  induction l with
  | nil => simp [List.dropWhile] at h
  | cons c cs ih =>
    rw [List.dropWhile_cons] at h
    by_cases hp : p c = true
    · rw [if_pos hp] at h
      exact ih h
    · rw [if_neg hp] at h
      have : c = x := by simpa using h
      rw [← this]
      simpa using hp

/-- stripChar yields an infix of its input. -/
theorem stripChar_sublist (ch : Char) (l : List Char) :
    stripChar ch l <:+: l := by
  unfold stripChar
  have h1 : (l.dropWhile (fun c => c = ch)) <:+ l := List.dropWhile_suffix _
  have h2 : ((l.dropWhile (fun c => c = ch)).reverse.dropWhile
      (fun c => c = ch)).reverse <+:
      ((l.dropWhile (fun c => c = ch)).reverse).reverse :=
    List.reverse_prefix.mpr (List.dropWhile_suffix _)
  rw [List.reverse_reverse] at h2
  obtain ⟨t, ht⟩ := h2
  obtain ⟨s, hs⟩ := h1
  exact ⟨s, t, by rw [List.append_assoc, ht, hs]⟩

theorem stripChar_head {ch : Char} (l : List Char) :
    (stripChar ch l).head? ≠ some ch := by
  unfold stripChar
  intro hc
  rw [List.head?_reverse] at hc
  set Z := (l.dropWhile (fun c => c = ch)).reverse with hZ
  by_cases hz : Z.dropWhile (fun c => c = ch) = []
  · rw [hz] at hc
    simp at hc
  · have h1 : (Z.dropWhile (fun c => c = ch)).getLast? = Z.getLast? := by
      obtain ⟨s, hs⟩ := List.dropWhile_suffix (l := Z) (fun c => c = ch)
      conv_rhs => rw [← hs]
      exact (List.getLast?_append_of_ne_nil _ hz).symm
    rw [h1, hZ, List.getLast?_reverse] at hc
    have := dropWhile_head? hc
    simp at this

theorem stripChar_getLast {ch : Char} (l : List Char) :
    (stripChar ch l).getLast? ≠ some ch := by
  unfold stripChar
  intro hc
  rw [List.getLast?_reverse] at hc
  have := dropWhile_head? hc
  simp at this

theorem stripChar_id {ch : Char} {l : List Char}
    (h1 : l.head? ≠ some ch) (h2 : l.getLast? ≠ some ch) :
    stripChar ch l = l := by
  unfold stripChar
  have e1 : l.dropWhile (fun c => c = ch) = l := by
    cases l with
    | nil => rfl
    | cons c cs =>
      have hcc : ¬(c = ch) := by
        intro he
        exact h1 (by simp [he])
      rw [List.dropWhile_cons, if_neg (by simpa using hcc)]
  rw [e1]
  have e2 : l.reverse.dropWhile (fun c => c = ch) = l.reverse := by
    cases hr : l.reverse with
    | nil => rfl
    | cons c cs =>
      have hlast : l.getLast? = some c := by
        rw [← List.head?_reverse, hr]
        rfl
      have hcc : ¬(c = ch) := by
        intro he
        rw [he] at hlast
        exact h2 hlast
      rw [List.dropWhile_cons, if_neg (by simpa using hcc)]
  rw [e2]
  simp

/-- On a hyphen-charset list without adjacent hyphens the hyphenation
pass is the identity (in the idle state; in the in-run state provided
the list does not begin with a hyphen). -/
theorem hyphenAux_fix : ∀ (t : List Char),
    (∀ c ∈ t, isSlugChar c = true ∨ c = '-') → NoDD t →
    hyphenAux false t = t ∧
      (t.head? ≠ some '-' → hyphenAux true t = t) := by
  intro t
  induction t with
  | nil => exact fun _ _ => ⟨rfl, fun _ => rfl⟩
  | cons c cs ih =>
    intro hcs hdd
    have hcs' : ∀ x ∈ cs, isSlugChar x = true ∨ x = '-' :=
      fun x hx => hcs x (by simp [hx])
    have hdd' : NoDD cs := hdd.tail
    obtain ⟨ih1, ih2⟩ := ih hcs' hdd'
    rcases hcs c (by simp) with hc | hc
    · constructor
      · simp only [hyphenAux]
        rw [if_pos hc, ih1]
      · intro _
        simp only [hyphenAux]
        rw [if_pos hc, ih1]
    · subst hc
      constructor
      · simp only [hyphenAux]
        rw [if_neg (by decide), if_neg (by simp)]
        have hh : cs.head? ≠ some '-' := by
          intro hh
          obtain ⟨hr, _⟩ := List.chain'_cons'.mp hdd
          exact hr '-' hh ⟨rfl, rfl⟩
        rw [ih2 hh]
      · intro hc2
        exact absurd (show (('-' :: cs : List Char)).head? = some '-' from rfl) hc2

theorem slugCore_chars (s : List Char) :
    ∀ c ∈ slugCore s, isSlugChar c = true ∨ c = '-' := by
  intro c hc
  have := (stripChar_sublist '-'
    (hyphenAux false ((nfkdAscii s).map Char.toLower))).subset hc
  exact hyphenAux_chars false _ c this

theorem slugCore_noDD (s : List Char) : NoDD (slugCore s) :=
  List.Chain'.infix (hyphenAux_noDD false _) (stripChar_sublist _ _)

theorem slugChar_ascii {c : Char} (h : isSlugChar c = true ∨ c = '-') :
    decide (c.toNat ≤ 127) = true := by
  simp only [decide_eq_true_eq]
  rcases h with h | h
  · simp only [isSlugChar, Bool.or_eq_true, Bool.and_eq_true,
      decide_eq_true_eq] at h
    have hz : Char.toNat 'z' = 122 := by decide
    have h9 : Char.toNat '9' = 57 := by decide
    rcases h with ⟨h1, h2⟩ | ⟨h1, h2⟩
    · have hn : c.toNat ≤ Char.toNat 'z' := by
        rw [Char.le_def] at h2
        exact h2
      omega
    · have hn : c.toNat ≤ Char.toNat '9' := by
        rw [Char.le_def] at h2
        exact h2
      omega
  · subst h
    decide

theorem slugChar_toLower {c : Char} (h : isSlugChar c = true ∨ c = '-') :
    c.toLower = c := by
  unfold Char.toLower
  rw [if_neg]
  intro hle
  obtain ⟨h1, h2⟩ := hle
  rcases h with h | h
  · simp only [isSlugChar, Bool.or_eq_true, Bool.and_eq_true,
      decide_eq_true_eq] at h
    have ha : Char.toNat 'a' = 97 := by decide
    have h9 : Char.toNat '9' = 57 := by decide
    rcases h with ⟨h3, h4⟩ | ⟨h3, h4⟩
    · have hn : Char.toNat 'a' ≤ c.toNat := by
        rw [Char.le_def] at h3
        exact h3
      omega
    · have hn : c.toNat ≤ Char.toNat '9' := by
        rw [Char.le_def] at h4
        exact h4
      omega
  · subst h
    have hd : Char.toNat '-' = 45 := by decide
    omega

theorem slugCore_slugCore (s : List Char) :
    slugCore (slugCore s) = slugCore s := by
  set t := slugCore s with ht
  have hchars := slugCore_chars s
  rw [← ht] at hchars
  have e1 : nfkdAscii t = t :=
    List.filter_eq_self.mpr (fun c hc => slugChar_ascii (hchars c hc))
  have e2 : t.map Char.toLower = t := by
    conv_rhs => rw [← List.map_id t]
    exact List.map_congr_left (fun c hc => slugChar_toLower (hchars c hc))
  have e3 : hyphenAux false t = t :=
    (hyphenAux_fix t hchars (slugCore_noDD s)).1
  have e4 : stripChar '-' t = t :=
    stripChar_id (stripChar_head _) (stripChar_getLast _)
  show stripChar '-' (hyphenAux false ((nfkdAscii t).map Char.toLower)) = t
  rw [e1, e2, e3, e4]

/-- Characters of any slugify output lie in [a-z0-9-]. -/
theorem slugify_chars (s : List Char) :
    ∀ c ∈ slugify s, isSlugChar c = true ∨ c = '-' := by
  by_cases hz : slugCore s = []
  · simp only [slugify, hz, if_pos rfl]
    decide
  · rw [show slugify s = slugCore s by simp [slugify, hz]]
    exact slugCore_chars s

/-- C7: slugify is total and idempotent; its output consists only of
characters from [a-z0-9-], never starts or ends with a hyphen, and is
the fallback literal "post" exactly when the normalization is empty. -/
theorem c7_slugify_idempotent (s : List Char) :
    slugify (slugify s) = slugify s ∧
    (∀ c ∈ slugify s, isSlugChar c = true ∨ c = '-') ∧
    (slugify s).head? ≠ some '-' ∧
    (slugify s).getLast? ≠ some '-' ∧
    (slugCore s = [] → slugify s = "post".toList) := by
  by_cases hz : slugCore s = []
  · have h1 : slugify s = "post".toList := by simp [slugify, hz]
    rw [h1]
    exact ⟨by decide, by decide, by decide, by decide, fun _ => rfl⟩
  · have h1 : slugify s = slugCore s := by simp [slugify, hz]
    rw [h1]
    refine ⟨?_, slugCore_chars s, stripChar_head _, stripChar_getLast _,
      fun hc => absurd hc hz⟩
    have h2 : slugCore (slugCore s) = slugCore s := slugCore_slugCore s
    simp [slugify, h2, hz]

/-- C7 witness: idempotence, character set, hyphen trimming and the
fallback at concrete inputs. -/
theorem c7_witness :
    slugify (slugify "My Page!".toList) = slugify "My Page!".toList ∧
    slugCore "!!".toList = [] ∧ slugify "!!".toList = "post".toList :=
  ⟨(c7_slugify_idempotent "My Page!".toList).1,
   by decide,
   (c7_slugify_idempotent "!!".toList).2.2.2.2 (by decide)⟩

/-! ### Claim C10: the markdown search does not check is_file -/

/-- C10: find_first_markdown selects by suffix alone, so a directory
whose name ends in .md/.markdown can be chosen as the markdown document
and the archive is not treated as a no-markdown skip; collect_images,
by contrast, filters to regular files. -/
theorem c10_md_search_accepts_directories (tree : List Entry) (e : Entry)
    (z : List Char) (hmem : e ∈ tree) (hk : e.kind = .dir)
    (hsuf : decide ((psuffix e.name).map Char.toLower ∈ mdExts) = true) :
    (find_first_markdown tree).isSome = true ∧
    (process_zip z tree).warnedNoMd = false ∧
    (∀ x ∈ collect_images tree, x.kind = .file) := by
  have hsome : (find_first_markdown tree).isSome = true :=
    List.find?_isSome.mpr ⟨e, hmem, hsuf⟩
  refine ⟨hsome, ?_, ?_⟩
  · rcases hopt : find_first_markdown tree with _ | md
    · rw [hopt] at hsome
      simp at hsome
    · simp only [process_zip, hopt]
      cases hk2 : md.kind <;> simp
  · intro x hx
    have := (List.mem_filter.mp hx).2
    simp only [Bool.and_eq_true, decide_eq_true_eq] at this
    exact this.1

/-- C10 witness: a tree whose only entry is a directory named a.md. -/
theorem c10_witness :
    (find_first_markdown [⟨"a.md".toList, .dir, []⟩]).isSome = true ∧
    (process_zip "a.zip".toList [⟨"a.md".toList, .dir, []⟩]).warnedNoMd
      = false ∧
    (∀ x ∈ collect_images [⟨"a.md".toList, .dir, []⟩], x.kind = .file) :=
  c10_md_search_accepts_directories _ ⟨"a.md".toList, .dir, []⟩ _
    (by decide) (by decide) (by decide)

/-! ### Claim C6: archives without markdown are skipped -/

/-- C6 (counterexample): an extracted tree whose only entry is a
directory named a.md contains no regular file with a markdown
extension, yet the importer does not skip it: the asset directory is
created and the markdown read then raises (aborting the batch), instead
of the claimed warn-and-skip with zero asset directories. -/
theorem c6_counterexample :
    (∀ e ∈ [Entry.mk "a.md".toList .dir []], e.kind ≠ EKind.file) ∧
    process_zip "a.zip".toList [⟨"a.md".toList, .dir, []⟩] =
      ⟨false, some "a".toList, [], none, some .readDirErr⟩ := by
  exact ⟨by decide, by decide⟩

/-- C6 (amended): for every archive whose extracted tree contains no
entry at all (file or directory) with a markdown extension, the importer
warns and skips it: no post is written, no asset directory is created,
no image is copied, no error is raised, and the batch continues with the
next archive. -/
theorem c6_no_markdown_entry_skips (z : List Char) (mt : Nat)
    (tree : List Entry) (rest : List Archive)
    (h : ∀ e ∈ tree,
      decide ((psuffix e.name).map Char.toLower ∈ mdExts) = false) :
    process_zip z tree = ⟨true, none, [], none, none⟩ ∧
    runBatch (⟨z, mt, .tree tree⟩ :: rest) =
      ((z, ⟨true, none, [], none, none⟩) :: (runBatch rest).1,
        (runBatch rest).2) := by
  have hnone : find_first_markdown tree = none :=
    List.find?_eq_none.mpr (fun x hx => by simp [h x hx])
  have h1 : process_zip z tree = ⟨true, none, [], none, none⟩ := by
    simp [process_zip, hnone]
  refine ⟨h1, ?_⟩
  simp only [runBatch, runArchive, h1]

/-- C6 witness: an archive holding only an image is skipped and the
batch continues to the next archive. -/
theorem c6_witness :
    process_zip "e.zip".toList [⟨"x.png".toList, .file, []⟩] =
      ⟨true, none, [], none, none⟩ ∧
    runBatch [⟨"e.zip".toList, 0, .tree [⟨"x.png".toList, .file, []⟩]⟩,
        ⟨"f.zip".toList, 1, .malformed⟩] =
      (("e.zip".toList, (⟨true, none, [], none, none⟩ : Outcome)) ::
        (runBatch [⟨"f.zip".toList, 1, .malformed⟩]).1,
        (runBatch [⟨"f.zip".toList, 1, .malformed⟩]).2) :=
  c6_no_markdown_entry_skips "e.zip".toList 0 [⟨"x.png".toList, .file, []⟩]
    [⟨"f.zip".toList, 1, .malformed⟩] (by decide)

/-! ### Claim C4: a failing archive aborts the batch -/

/-- C4 (counterexample): a directory with a malformed zip (older mtime)
and a perfectly processable zip: the malformed one is processed first,
its error ends the loop, and the good archive is never processed, even
though on its own it processes without error. -/
theorem c4_counterexample :
    main_model
        [⟨"b.zip".toList, 5, .tree [⟨"n.md".toList, .file, "hi".toList⟩]⟩,
         ⟨"a.zip".toList, 3, .malformed⟩] =
      ([("a.zip".toList, ⟨false, none, [], none, some .badZip⟩)],
        some .badZip) ∧
    (runArchive
        ⟨"b.zip".toList, 5, .tree [⟨"n.md".toList, .file, "hi".toList⟩]⟩).err
      = none := by
  exact ⟨by decide, by decide⟩

/-- C4 (amended): only the missing-markdown case is non-fatal: such an
archive is skipped with a warning and every remaining archive is still
processed; an error while processing an archive (e.g. a malformed zip)
is not caught by the loop, which stops, leaving every remaining archive
unprocessed. -/
theorem c4_error_aborts_batch (nm nm2 : List Char) (mt mt2 : Nat)
    (tree : List Entry) (rest : List Archive) :
    (find_first_markdown tree = none →
      runBatch (⟨nm, mt, .tree tree⟩ :: rest) =
        ((nm, ⟨true, none, [], none, none⟩) :: (runBatch rest).1,
          (runBatch rest).2)) ∧
    runBatch (⟨nm2, mt2, .malformed⟩ :: rest) =
      ([(nm2, ⟨false, none, [], none, some .badZip⟩)], some .badZip) := by
  constructor
  · intro h
    have h1 : process_zip nm tree = ⟨true, none, [], none, none⟩ := by
      simp [process_zip, h]
    simp only [runBatch, runArchive, h1]
  · simp only [runBatch, runArchive]

/-- C4 witness: the skip case continues into an empty remainder. -/
theorem c4_witness :
    runBatch [⟨"e.zip".toList, 0, .tree [⟨"x.png".toList, .file, []⟩]⟩] =
      ([("e.zip".toList, ⟨true, none, [], none, none⟩)], none) := by
  have := (c4_error_aborts_batch "e.zip".toList "m.zip".toList 0 0
    [⟨"x.png".toList, .file, []⟩] []).1 (by decide)
  simpa using this

/-! ### Claim C5: importing an archive with notes.md and photo.PNG -/

/-- Characters already consumed by a replaced match are skipped without
further inspection. -/
theorem mdSubAux_skip (m : List (List Char × List Char)) (sl : List Char) :
    ∀ (x y : List Char), mdSubAux m sl (x ++ y) x.length = mdSubAux m sl y 0 := by
  intro x
  induction x with
  | nil => intro y; rfl
  | cons c x' ih =>
    intro y
    simp only [List.cons_append, List.length_cons]
    rw [show mdSubAux m sl (c :: (x' ++ y)) (x'.length + 1) =
      mdSubAux m sl (x' ++ y) x'.length from rfl, ih]

/-- The html scanner's skip behaviour, identically. -/
theorem htmlSubAux_skip (m : List (List Char × List Char)) (sl : List Char) :
    ∀ (x y : List Char),
      htmlSubAux m sl (x ++ y) x.length = htmlSubAux m sl y 0 := by
  intro x
  induction x with
  | nil => intro y; rfl
  | cons c x' ih =>
    intro y
    simp only [List.cons_append, List.length_cons]
    rw [show htmlSubAux m sl (c :: (x' ++ y)) (x'.length + 1) =
      htmlSubAux m sl (x' ++ y) x'.length from rfl, ih]

theorem htmlTry_none_of_head {c : Char} (rest : List Char) (hc : c ≠ '<') :
    htmlTry (c :: rest) = none := by
  unfold htmlTry
  split
  · rename_i r0 heq
    obtain ⟨h1, _⟩ := List.cons.injEq .. ▸ heq
    exact absurd h1 hc
  · rfl

/-- A text without '<' passes through the html substitution unchanged. -/
theorem replace_html_images_no_lt (m : List (List Char × List Char))
    (sl : List Char) :
    ∀ (t : List Char), (∀ c ∈ t, c ≠ '<') →
      replace_html_images t m sl = t := by
  intro t
  induction t with
  | nil => intro _; rfl
  | cons c rest ih =>
    intro h
    have hc : c ≠ '<' := h c (by simp)
    show htmlSubAux m sl (c :: rest) 0 = c :: rest
    rw [show htmlSubAux m sl (c :: rest) 0 =
      (match htmlTry (c :: rest) with
       | some (src, rst, rem) =>
         html_sub_one m sl
             ((c :: rest).take ((c :: rest).length - rem.length)) src rst ++
           htmlSubAux m sl rest ((c :: rest).length - rem.length - 1)
       | none => c :: htmlSubAux m sl rest 0) from rfl,
      htmlTry_none_of_head rest hc]
    exact congrArg (c :: ·) (ih (fun x hx => h x (by simp [hx])))

/-- No character of a slug is '<'. -/
theorem slugify_no_lt (s : List Char) : ∀ c ∈ slugify s, c ≠ '<' := by
  intro c hc he
  rcases slugify_chars s c hc with h | h
  · rw [he] at h
    exact absurd h (by decide)
  · rw [he] at h
    exact absurd h (by decide)

theorem occursCI_false_drop {n s : List Char} (h : occursCI n s = false) :
    ∀ k, prefixCI n (s.drop k) = false := by
  induction s with
  | nil =>
    intro k
    simp only [List.drop_nil]
    simpa [occursCI] using h
  | cons c t ih =>
    intro k
    simp only [occursCI, Bool.or_eq_false_iff] at h
    cases k with
    | zero => exact h.1
    | succ k' => exact ih h.2 k'

theorem takeWhile_append_all {p : Char → Bool} :
    ∀ (x y : List Char), (∀ c ∈ x, p c = true) →
      (x ++ y).takeWhile p = x ++ y.takeWhile p ∧
      (x ++ y).dropWhile p = y.dropWhile p := by
  intro x
  induction x with
  | nil => intro y _; simp
  | cons c x' ih =>
    intro y h
    have hc := h c (by simp)
    obtain ⟨e1, e2⟩ := ih y (fun z hz => h z (by simp [hz]))
    constructor
    · simp only [List.cons_append, List.takeWhile_cons, hc, if_true, e1]
    · simp only [List.cons_append, List.dropWhile_cons, hc, if_true, e2]

theorem checkSrcAt_none_of_not_prefixCI {t : List Char}
    (h : prefixCI "src=".toList t = false) : checkSrcAt t = none := by
  unfold checkSrcAt
  split
  · rename_i c1 c2 c3 c4 q r
    rw [if_neg]
    intro hg
    simp only [Bool.and_eq_true, decide_eq_true_eq] at hg
    obtain ⟨⟨⟨⟨g1, g2⟩, g3⟩, g4⟩, _⟩ := hg
    have : prefixCI "src=".toList (c1 :: c2 :: c3 :: c4 :: q :: r) = true := by
      show (ciChar c1 's' && (ciChar c2 'r' && (ciChar c3 'c' &&
        (ciChar c4 '=' && true)))) = true
      rw [g4, g1, g2, g3]
      decide
    rw [this] at h
    exact absurd h (by simp)
  · rfl

theorem checkSrcAt_at_src {src rst : List Char}
    (hsrcne : src ≠ [])
    (hsrc : ∀ c ∈ src, (c ≠ '"' && c ≠ squote && c ≠ '>') = true)
    (hrst : ∀ c ∈ rst, c ≠ '>') :
    checkSrcAt ("src=".toList ++ '"' :: (src ++ '"' :: (rst ++ ['>']))) =
      some (src, rst, []) := by
  have hspan1 : (src ++ '"' :: (rst ++ ['>'])).span
      (fun c => c ≠ '"' && c ≠ squote) = (src, '"' :: (rst ++ ['>'])) := by
    rw [List.span_eq_take_drop]
    obtain ⟨e1, e2⟩ := takeWhile_append_all (p := fun c => c ≠ '"' && c ≠ squote)
      src ('"' :: (rst ++ ['>']))
      (fun c hc => by
        have h2 := hsrc c hc
        simp only [Bool.and_eq_true] at h2 ⊢
        exact ⟨h2.1.1, h2.1.2⟩)
    rw [e1, e2]
    simp [List.takeWhile_cons, List.dropWhile_cons]
  have hspan2 : (rst ++ ['>']).span (fun c => c ≠ '>') = (rst, ['>']) := by
    rw [List.span_eq_take_drop]
    obtain ⟨e1, e2⟩ := takeWhile_append_all (p := fun c => c ≠ '>')
      rst ['>'] (fun c hc => by simpa using hrst c hc)
    rw [e1, e2]
    simp
  show checkSrcAt ('s' :: 'r' :: 'c' :: '=' :: '"' ::
      (src ++ '"' :: (rst ++ ['>']))) = some (src, rst, [])
  simp only [checkSrcAt]
  split
  · rw [hspan1]
    simp only []
    rw [if_neg hsrcne, hspan2]
    simp only []
  · rename_i hg
    exact absurd (by decide) hg

theorem htmlScan_hit {r1 : List Char}
    {res : List Char × List Char × List Char} {n : Nat}
    (h : checkSrcAt (r1.drop n) = some res) : htmlScan n r1 = some res := by
  cases n with
  | zero => simpa [htmlScan] using h
  | succ j =>
    rw [htmlScan, h]

theorem htmlScan_descend {r1 : List Char} {k : Nat} :
    ∀ n, k ≤ n → (∀ m, k < m → m ≤ n → checkSrcAt (r1.drop m) = none) →
      htmlScan n r1 = htmlScan k r1 := by
  intro n
  induction n with
  | zero =>
    intro hk _
    interval_cases k
    rfl
  | succ j ih =>
    intro hk hnone
    rcases Nat.eq_or_lt_of_le hk with he | hlt
    · rw [he]
    · rw [htmlScan, hnone (j + 1) hlt (le_refl _)]
      exact ih (Nat.lt_succ_iff.mp hlt)
        (fun m h1 h2 => hnone m h1 (Nat.le_succ_of_le h2))

theorem checkSrcAt_shift_none {src rst : List Char}
    (huniq : occursCI "src=".toList
      ("rc=".toList ++ '"' :: (src ++ '"' :: (rst ++ ['>']))) = false)
    (j : Nat) (hj : 1 ≤ j) :
    checkSrcAt (("src=".toList ++ '"' :: (src ++ '"' :: (rst ++ ['>']))).drop j)
      = none := by
  apply checkSrcAt_none_of_not_prefixCI
  have hd : ("src=".toList ++ '"' :: (src ++ '"' :: (rst ++ ['>']))).drop j =
      ("rc=".toList ++ '"' :: (src ++ '"' :: (rst ++ ['>']))).drop (j - 1) := by
    obtain ⟨j', rfl⟩ := Nat.exists_eq_add_of_le hj
    simp only [Nat.add_sub_cancel_left]
    rw [Nat.add_comm 1 j']
    rfl
  rw [hd]
  exact occursCI_false_drop huniq (j - 1)

theorem htmlAfterLt_img {ws P : List Char} (hws : ws ≠ [])
    (hwsa : ∀ c ∈ ws, isWs c = true)
    (hP : P.dropWhile isWs = P) :
    htmlAfterLt ("img".toList ++ (ws ++ P)) = some P := by
  show htmlAfterLt ('i' :: 'm' :: 'g' :: (ws ++ P)) = some P
  simp only [htmlAfterLt]
  obtain ⟨e1, e2⟩ := takeWhile_append_all (p := isWs) ws P hwsa
  have htw : ¬((ws ++ P).takeWhile isWs = []) := by
    cases ws with
    | nil => exact absurd rfl hws
    | cons w ws' =>
      rw [List.cons_append, List.takeWhile_cons, if_pos (hwsa w (by simp))]
      simp
  split
  all_goals
    first
    | rw [e2, hP]
    | (rename_i h0; exact absurd h0 htw)
    | (rename_i hg; exact absurd (by decide) hg)

theorem htmlTry_tag {ws pre src rst : List Char} (hws : ws ≠ [])
    (hwsa : ∀ c ∈ ws, isWs c = true)
    (hpreh : ∀ x, pre.head? = some x → isWs x = false)
    (hpre : ∀ c ∈ pre, c ≠ '>')
    (hsrcne : src ≠ [])
    (hsrc : ∀ c ∈ src, (c ≠ '"' && c ≠ squote && c ≠ '>') = true)
    (hrst : ∀ c ∈ rst, c ≠ '>')
    (huniq : occursCI "src=".toList
      ("rc=".toList ++ '"' :: (src ++ '"' :: (rst ++ ['>']))) = false) :
    htmlTry ('<' :: ("img".toList ++ (ws ++ (pre ++ ("src=".toList ++
        '"' :: (src ++ '"' :: (rst ++ ['>']))))))) = some (src, rst, []) := by
  have hPdw : (pre ++ ("src=".toList ++
      '"' :: (src ++ '"' :: (rst ++ ['>'])))).dropWhile isWs =
      pre ++ ("src=".toList ++ '"' :: (src ++ '"' :: (rst ++ ['>']))) := by
    cases pre with
    | nil =>
      simp only [List.nil_append]
      rw [show ("src=".toList ++ '"' :: (src ++ '"' :: (rst ++ ['>']))) =
        's' :: ("rc=".toList ++ '"' :: (src ++ '"' :: (rst ++ ['>']))) from rfl]
      rw [List.dropWhile_cons, if_neg (by decide)]
    | cons p0 pre' =>
      rw [List.cons_append, List.dropWhile_cons,
        if_neg (by rw [hpreh p0 rfl]; exact (by simp))]
  have hafter := htmlAfterLt_img (P := pre ++ ("src=".toList ++
      '"' :: (src ++ '"' :: (rst ++ ['>'])))) hws hwsa hPdw
  show htmlTry ('<' :: ("img".toList ++ (ws ++ (pre ++ ("src=".toList ++
      '"' :: (src ++ '"' :: (rst ++ ['>']))))))) = some (src, rst, [])
  simp only [htmlTry]
  rw [hafter]
  simp only []
  have htake : (pre ++ ("src=".toList ++
      '"' :: (src ++ '"' :: (rst ++ ['>'])))).takeWhile (fun c => c ≠ '>') =
      pre ++ ("src=".toList ++ '"' :: (src ++ '"' :: rst)) := by
    have hshape : pre ++ ("src=".toList ++
        '"' :: (src ++ '"' :: (rst ++ ['>']))) =
        (pre ++ ("src=".toList ++ '"' :: (src ++ '"' :: rst))) ++ ['>'] := by
      simp [List.append_assoc]
    rw [hshape]
    obtain ⟨e1, _⟩ := takeWhile_append_all
      (p := fun c => c ≠ '>')
      (pre ++ ("src=".toList ++ '"' :: (src ++ '"' :: rst))) ['>']
      (fun c hc => by
        have h6 : c ∈ pre ∨ c ∈ "src=".toList ∨ c = '"' ∨ c ∈ src ∨
            c ∈ rst := by
          simp only [List.mem_append, List.mem_cons] at hc
          tauto
        rcases h6 with h | h | h | h | h
        · simpa using hpre c h
        · rw [show ("src=".toList) = ['s', 'r', 'c', '='] from rfl] at h
          fin_cases h <;> decide
        · subst h; decide
        · have h2 := hsrc c h
          simp only [Bool.and_eq_true] at h2
          simpa using h2.2
        · simpa using hrst c h)
    rw [e1]
    simp
  rw [htake]
  have hnone : ∀ m, pre.length < m →
      m ≤ (pre ++ ("src=".toList ++ '"' :: (src ++ '"' :: rst))).length →
      checkSrcAt ((pre ++ ("src=".toList ++
        '"' :: (src ++ '"' :: (rst ++ ['>'])))).drop m) = none := by
    intro m h1 _
    rw [List.drop_append_eq_append_drop,
      List.drop_eq_nil_of_le (Nat.le_of_lt h1), List.nil_append]
    exact checkSrcAt_shift_none huniq (m - pre.length) (by omega)
  rw [htmlScan_descend (k := pre.length)
    ((pre ++ ("src=".toList ++ '"' :: (src ++ '"' :: rst))).length)
    (by simp [List.length_append]) hnone]
  apply htmlScan_hit
  rw [List.drop_left]
  exact checkSrcAt_at_src hsrcne hsrc hrst

theorem htmlSubAux_skip_all (m : List (List Char × List Char))
    (sl x : List Char) : htmlSubAux m sl x x.length = [] := by
  have h := htmlSubAux_skip m sl x []
  rw [List.append_nil] at h
  rw [h]
  rfl

theorem htmlSubAux_match (m : List (List Char × List Char)) (sl : List Char)
    {c : Char} {r1 src rst rem : List Char}
    (h : htmlTry (c :: r1) = some (src, rst, rem)) :
    htmlSubAux m sl (c :: r1) 0 =
      html_sub_one m sl ((c :: r1).take ((c :: r1).length - rem.length))
          src rst ++
        htmlSubAux m sl r1 ((c :: r1).length - rem.length - 1) := by
  rw [htmlSubAux, h]

/-- C3: for a well-formed img tag with attributes before and after src,
whose key is in the mapping, the rewrite emits the fixed prefix, the
templated path and the post-src attributes verbatim; the pre-src
attributes are dropped.  A tag whose key is absent is left untouched. -/
theorem c3_html_rewrite_drops_pre_src_attrs
    (m : List (List Char × List Char)) (sl ws pre src rst fn : List Char)
    (hws : ws ≠ [])
    (hwsa : ∀ c ∈ ws, isWs c = true)
    (hpreh : ∀ x, pre.head? = some x → isWs x = false)
    (hpre : ∀ c ∈ pre, c ≠ '>')
    (hsrcne : src ≠ [])
    (hsrc : ∀ c ∈ src, (c ≠ '"' && c ≠ squote && c ≠ '>') = true)
    (hrst : ∀ c ∈ rst, c ≠ '>')
    (huniq : occursCI "src=".toList
      ("rc=".toList ++ '"' :: (src ++ '"' :: (rst ++ ['>']))) = false) :
    (dget m ((basenameP (unquote (pstrip src))).map Char.toLower) = some fn →
      replace_html_images
          ('<' :: ("img".toList ++ (ws ++ (pre ++ ("src=".toList ++
            '"' :: (src ++ '"' :: (rst ++ ['>'])))))))
          m sl =
        "<img src=\"\x7b\x7b '".toList ++ newPath sl fn ++
          "' | relative_url \x7d\x7d\"".toList ++ rst ++ ">".toList) ∧
    (dget m ((basenameP (unquote (pstrip src))).map Char.toLower) = none →
      replace_html_images
          ('<' :: ("img".toList ++ (ws ++ (pre ++ ("src=".toList ++
            '"' :: (src ++ '"' :: (rst ++ ['>'])))))))
          m sl =
        '<' :: ("img".toList ++ (ws ++ (pre ++ ("src=".toList ++
          '"' :: (src ++ '"' :: (rst ++ ['>']))))))) := by
  have htry := htmlTry_tag hws hwsa hpreh hpre hsrcne hsrc hrst huniq
  have hsub := htmlSubAux_match m sl htry
  simp only [List.length_nil, Nat.sub_zero, List.take_length] at hsub
  simp only [List.length_cons, Nat.add_sub_cancel] at hsub
  rw [htmlSubAux_skip_all, List.append_nil] at hsub
  constructor
  · intro hk
    show htmlSubAux m sl ('<' :: ("img".toList ++ (ws ++ (pre ++
      ("src=".toList ++ '"' :: (src ++ '"' :: (rst ++ ['>']))))))) 0 = _
    rw [hsub]
    simp only [html_sub_one]
    rw [hk]
  · intro hk
    show htmlSubAux m sl ('<' :: ("img".toList ++ (ws ++ (pre ++
      ("src=".toList ++ '"' :: (src ++ '"' :: (rst ++ ['>']))))))) 0 = _
    rw [hsub]
    simp only [html_sub_one]
    rw [hk]

/-- C3 counterexample: the `width="5"` attribute written before src is
dropped from the rewritten tag, not preserved verbatim. -/
theorem c3_counterexample :
    replace_html_images "<img width=\"5\" src=\"a.png\" alt=\"t\">".toList
        [("a.png".toList, "s_a.png".toList)] "s".toList =
      "<img src=\"\x7b\x7b '/assets/images/s/s_a.png' | relative_url \x7d\x7d\" alt=\"t\">".toList ∧
    subStr "width".toList
      (replace_html_images "<img width=\"5\" src=\"a.png\" alt=\"t\">".toList
        [("a.png".toList, "s_a.png".toList)] "s".toList) = false := by
  constructor
  · decide
  · decide

/-- C3 witness: the amended theorem applied to a concrete tag carrying a
pre-src attribute; the output drops it and keeps the post-src part. -/
theorem c3_witness :
    replace_html_images "<img width=\"5\" src=\"a.png\" alt=\"t\">".toList
        [("a.png".toList, "s_a.png".toList)] "s".toList =
      "<img src=\"\x7b\x7b '/assets/images/s/s_a.png' | relative_url \x7d\x7d\" alt=\"t\">".toList := by
  have h := (c3_html_rewrite_drops_pre_src_attrs
      [("a.png".toList, "s_a.png".toList)] "s".toList [' ']
      "width=\"5\" ".toList "a.png".toList " alt=\"t\"".toList "s_a.png".toList
      (by decide) (by decide) (by decide) (by decide) (by decide) (by decide)
      (by decide) (by decide)).1 (by decide)
  have e1 : "<img width=\"5\" src=\"a.png\" alt=\"t\">".toList =
      '<' :: ("img".toList ++ ([' '] ++ ("width=\"5\" ".toList ++
        ("src=".toList ++ '"' :: ("a.png".toList ++
          '"' :: (" alt=\"t\"".toList ++ ['>'])))))) := by decide
  rw [e1, h]
  decide

theorem mdSubAux_skip_all (m : List (List Char × List Char)) (sl : List Char)
    (x : List Char) : mdSubAux m sl x x.length = [] := by
  have h := mdSubAux_skip m sl x []
  rw [List.append_nil] at h
  rw [h]
  rfl

theorem md_rewrite_photo (sl v : List Char) :
    replace_markdown_images "![x](photo.PNG)".toList
        [("photo.png".toList, v), ("photo.png".toList, v)] sl =
      "![".toList ++ ("x".toList ++ ("](\x7b\x7b '".toList ++
        ("/assets/images/".toList ++ (sl ++
          ('/' :: (v ++ "' | relative_url \x7d\x7d)".toList)))))) := by
  show mdSubAux [("photo.png".toList, v), ("photo.png".toList, v)] sl
    "![x](photo.PNG)".toList 0 = _
  rw [show mdSubAux [("photo.png".toList, v), ("photo.png".toList, v)] sl
      "![x](photo.PNG)".toList 0 =
    md_sub_one [("photo.png".toList, v), ("photo.png".toList, v)] sl
        "x".toList "photo.PNG".toList ++
      mdSubAux [("photo.png".toList, v), ("photo.png".toList, v)] sl
        "[x](photo.PNG)".toList 14 from rfl]
  rw [show (14 : Nat) = ("[x](photo.PNG)".toList).length from by decide,
    mdSubAux_skip_all, List.append_nil]
  simp only [md_sub_one]
  rw [show (basenameP (unquote (pstrip "photo.PNG".toList))).map Char.toLower
    = "photo.png".toList from by decide]
  have hdg : dget [("photo.png".toList, v), ("photo.png".toList, v)]
      "photo.png".toList = some v := by simp [dget]
  rw [hdg]
  simp [newPath, List.append_assoc]

theorem photo_prefix_merge : ∀ (X : List Char),
    "![".toList ++ ("x".toList ++ ("](\x7b\x7b '".toList ++
      ("/assets/images/".toList ++ X))) =
    "![x](\x7b\x7b '/assets/images/".toList ++ X := by
  intro X
  rw [← List.append_assoc, ← List.append_assoc, ← List.append_assoc]
  exact congrArg (· ++ X) (by decide)

/-- C5: for every archive name, the importer model on the tree
{notes.md: "![x](photo.PNG)", photo.PNG} warns of nothing, creates the
slug asset directory, copies the image under the slugged name, and
writes the post whose body has the reference rewritten to the templated
asset path with the alt text preserved. -/
theorem c5_importer_rewrites_photo (z : List Char) :
    process_zip z
        [⟨"notes.md".toList, .file, "![x](photo.PNG)".toList⟩,
         ⟨"photo.PNG".toList, .file, []⟩] =
      ⟨false, some (slugify (pstem z)),
        [(slugify (pstem z), slugify (pstem z) ++ "_photo.png".toList)],
        some (POST_DATE ++ '-' :: slugify (pstem z) ++ ".markdown".toList,
          frontMatterFor "notes".toList ++
            ("![x](\x7b\x7b '/assets/images/".toList ++
              (slugify (pstem z) ++ ('/' :: (slugify (pstem z) ++
                "_photo.png' | relative_url \x7d\x7d)".toList))))),
        none⟩ := by
  have hf : find_first_markdown
      [⟨"notes.md".toList, .file, "![x](photo.PNG)".toList⟩,
       ⟨"photo.PNG".toList, .file, []⟩] =
      some ⟨"notes.md".toList, .file, "![x](photo.PNG)".toList⟩ := by decide
  have hcol : collect_images
      [⟨"notes.md".toList, .file, "![x](photo.PNG)".toList⟩,
       ⟨"photo.PNG".toList, .file, []⟩] =
      [⟨"photo.PNG".toList, .file, []⟩] := by decide
  have hstem : pstem "notes.md".toList = "notes".toList := by decide
  have hsan : sanitize_img "photo.PNG".toList = "photo.png".toList := by decide
  simp only [process_zip, hf, hcol, hstem, List.map_cons, List.map_nil,
    List.foldl_cons, List.foldl_nil, build_new_img_name, hsan,
    List.nil_append]
  rw [if_neg (by decide : ¬("notes".toList = []))]
  rw [show ('_' :: "photo.png".toList) = "_photo.png".toList from by decide,
    show List.map Char.toLower "photo.PNG".toList = "photo.png".toList from
      by decide,
    show List.map Char.toLower "photo.png".toList = "photo.png".toList from
      by decide]
  rw [md_rewrite_photo]
  rw [replace_html_images_no_lt _ _ _ ?mem]
  case mem =>
    intro c hc
    simp only [List.mem_append, List.mem_cons] at hc
    rcases hc with h | h
    · revert h
      revert c
      decide
    · rcases h with h | h
      · revert h
        revert c
        decide
      · rcases h with h | h
        · revert h
          revert c
          decide
        · rcases h with h | h
          · revert h
            revert c
            decide
          · rcases h with h | h
            · exact slugify_no_lt _ c h
            · rcases h with h | h
              · rw [h]
                decide
              · rcases h with h | h
                · rcases h with h2 | h2
                  · exact slugify_no_lt _ c h2
                  · revert h2
                    revert c
                    decide
                · revert h
                  revert c
                  decide
  rw [photo_prefix_merge]
  rw [List.append_assoc (slugify (pstem z)) "_photo.png".toList]
  rw [show "_photo.png".toList ++ "' | relative_url \x7d\x7d)".toList =
    "_photo.png' | relative_url \x7d\x7d)".toList from by decide]

theorem take_eq_dateLit_length {l : List Char} (h : l.take 5 = dateLit) :
    5 ≤ l.length := by
  have := congrArg List.length h
  rw [List.length_take] at this
  have h2 : dateLit.length = 5 := by decide
  omega

theorem tw_append {p : Char → Bool} :
    ∀ (d X : List Char), (∃ c ∈ d, p c = false) →
      (d ++ X).takeWhile p = d.takeWhile p ∧
      (d ++ X).dropWhile p = d.dropWhile p ++ X := by
  intro d
  induction d with
  | nil => intro X h; simp at h
  | cons c d' ih =>
    intro X h
    by_cases hp : p c = true
    · obtain ⟨w, hw, hwp⟩ := h
      have hw' : w ∈ d' := by
        rcases List.mem_cons.mp hw with h1 | h1
        · rw [h1] at hwp
          rw [hwp] at hp
          exact absurd hp (by simp)
        · exact h1
      obtain ⟨e1, e2⟩ := ih X ⟨w, hw', hwp⟩
      constructor
      · simp only [List.cons_append, List.takeWhile_cons, hp, if_true, e1]
      · simp only [List.cons_append, List.dropWhile_cons, hp, if_true, e2]
    · constructor
      · simp only [List.cons_append, List.takeWhile_cons]
        rw [if_neg hp, if_neg hp]
      · simp only [List.cons_append, List.dropWhile_cons]
        rw [if_neg hp, if_neg hp]
        rfl

theorem dw_to_nl : ∀ (x T : List Char), (∀ c ∈ x, c ≠ '\n') →
    (x ++ '\n' :: T).dropWhile (fun c => c ≠ '\n') = '\n' :: T := by
  intro x
  induction x with
  | nil => intro T _; simp [List.dropWhile_cons]
  | cons c x' ih =>
    intro T h
    have hc : c ≠ '\n' := h c (by simp)
    simp only [List.cons_append, List.dropWhile_cons]
    rw [if_pos (by simpa using hc)]
    exact ih T (fun y hy => h y (by simp [hy]))

theorem tryDateMatch_line_pos {l : List Char} (hm : lineDateMatch l = true)
    (hs : spanSafe l = true) (hnl : '\n' ∉ l) (T : List Char) :
    tryDateMatch (l ++ '\n' :: T) = some ('\n' :: T) := by
  simp only [lineDateMatch, Bool.and_eq_true, decide_eq_true_eq] at hm
  obtain ⟨h5, hws⟩ := hm
  have hlen := take_eq_dateLit_length h5
  have ht : (l ++ '\n' :: T).take 5 = dateLit := by
    rw [List.take_append_eq_append_take,
      show 5 - l.length = 0 from by omega]
    simp [h5]
  have hd : (l ++ '\n' :: T).drop 5 = l.drop 5 ++ '\n' :: T := by
    rw [List.drop_append_eq_append_drop, show 5 - l.length = 0 from by omega]
    simp
  have hex : ∃ c ∈ l.drop 5, isWs c = false := by
    have hall : (l.drop 5).all isWs = false := by
      by_cases ha : (l.drop 5).all isWs = true
      · exfalso
        simp only [spanSafe, h5, ha] at hs
        simp at hs
      · simpa using ha
    have : ¬ ∀ c ∈ l.drop 5, isWs c = true := by
      rw [← List.all_eq_true]
      simp [hall]
    push_neg at this
    obtain ⟨c, hc1, hc2⟩ := this
    exact ⟨c, hc1, by simpa using hc2⟩
  obtain ⟨e1, e2⟩ := tw_append (p := isWs) (l.drop 5) ('\n' :: T) hex
  unfold tryDateMatch
  rw [ht, if_pos rfl, hd, e1, if_neg hws, e2]
  have hnodw : ∀ c ∈ (l.drop 5).dropWhile isWs, c ≠ '\n' := by
    intro c hc he
    have : c ∈ l := by
      have h1 : c ∈ l.drop 5 := by
        have hsub := List.dropWhile_suffix (l := l.drop 5) isWs
        exact hsub.subset hc
      exact (List.drop_suffix 5 l).subset h1
    rw [he] at this
    exact hnl this
  rw [dw_to_nl _ T hnodw]

theorem tryDateMatch_line_neg {l : List Char} (hm : lineDateMatch l = false)
    (hs : spanSafe l = true) (T : List Char) :
    tryDateMatch (l ++ '\n' :: T) = none := by
  by_cases h5 : l.take 5 = dateLit
  · have hlen := take_eq_dateLit_length h5
    have ht : (l ++ '\n' :: T).take 5 = dateLit := by
      rw [List.take_append_eq_append_take,
        show 5 - l.length = 0 from by omega]
      simp [h5]
    have hd : (l ++ '\n' :: T).drop 5 = l.drop 5 ++ '\n' :: T := by
      rw [List.drop_append_eq_append_drop, show 5 - l.length = 0 from by omega]
      simp
    have hws : (l.drop 5).takeWhile isWs = [] := by
      by_cases hw : (l.drop 5).takeWhile isWs = []
      · exact hw
      · exfalso
        simp only [lineDateMatch, h5, Bool.and_eq_true] at hm
        simp [hw] at hm
    -- the drop cannot be empty: that is the span-unsafe "date:" line
    have hne : l.drop 5 ≠ [] := by
      intro he
      simp only [spanSafe, h5, he] at hs
      simp at hs
    unfold tryDateMatch
    rw [ht, if_pos rfl, hd]
    cases hdr : l.drop 5 with
    | nil => exact absurd hdr hne
    | cons d0 d' =>
      have hd0 : isWs d0 = false := by
        rw [hdr] at hws
        rw [List.takeWhile_cons] at hws
        by_cases hh : isWs d0 = true
        · rw [if_pos hh] at hws
          simp at hws
        · simpa using hh
      rw [if_pos (show List.takeWhile isWs (d0 :: d' ++ '\n' :: T) = [] from by
        rw [List.cons_append, List.takeWhile_cons, if_neg (by simp [hd0])])]
  · have ht : (l ++ '\n' :: T).take 5 ≠ dateLit := by
      by_cases hlen : 5 ≤ l.length
      · rw [List.take_append_eq_append_take,
          show 5 - l.length = 0 from by omega]
        simpa using h5
      · intro heq
        have hmem : '\n' ∈ (l ++ '\n' :: T).take 5 := by
          rw [List.take_append_eq_append_take]
          refine List.mem_append.mpr (Or.inr ?_)
          rw [show (5 - l.length) = (5 - l.length - 1) + 1 from by omega]
          simp [List.take_succ_cons]
        rw [heq] at hmem
        exact absurd hmem (by decide)
    unfold tryDateMatch
    rw [if_neg ht]

theorem dateSubAux_skip : ∀ (x y : List Char),
    dateSubAux (x ++ y) false x.length = dateSubAux y false 0 := by
  intro x
  induction x with
  | nil => intro y; rfl
  | cons c x' ih =>
    intro y
    simp only [List.cons_append, List.length_cons]
    rw [show dateSubAux (c :: (x' ++ y)) false (x'.length + 1) =
      dateSubAux (x' ++ y) false x'.length from rfl, ih]

theorem dateSubAux_text : ∀ (x T : List Char), (∀ c ∈ x, c ≠ '\n') →
    dateSubAux (x ++ '\n' :: T) false 0 = x ++ '\n' :: dateSubAux T true 0 := by
  intro x
  induction x with
  | nil =>
    intro T _
    show ('\n' :: dateSubAux T (decide ('\n' = '\n')) 0) =
      '\n' :: dateSubAux T true 0
    have hdec : (decide (('\n' : Char) = '\n')) = true := by simp
    rw [hdec]
  | cons c x' ih =>
    intro T h
    have hc : c ≠ '\n' := h c (by simp)
    simp only [List.cons_append]
    show c :: dateSubAux (x' ++ '\n' :: T) (decide (c = '\n')) 0 = _
    have hdec : (decide (c = '\n')) = false := by simp [hc]
    rw [hdec, ih T (fun y hy => h y (by simp [hy]))]

theorem dateSubAux_match {c : Char} {rest rem : List Char}
    (h : tryDateMatch (c :: rest) = some rem) :
    dateSubAux (c :: rest) true 0 =
      newDateLine ++ dateSubAux rest false ((c :: rest).length - rem.length - 1) := by
  rw [dateSubAux, if_pos rfl, h]

theorem dateSubAux_nomatch {c : Char} {rest : List Char}
    (h : tryDateMatch (c :: rest) = none) :
    dateSubAux (c :: rest) true 0 = c :: dateSubAux rest (c = '\n') 0 := by
  rw [dateSubAux, if_pos rfl, h]

theorem dateSub_lines : ∀ (lines : List (List Char)),
    (∀ l ∈ lines, '\n' ∉ l) → (∀ l ∈ lines, spanSafe l = true) →
    dateSubAux (joinNl lines) true 0 =
      joinNl (lines.map (fun l => if lineDateMatch l then newDateLine else l)) := by
  intro lines
  induction lines with
  | nil => intro _ _; rfl
  | cons l rest ih =>
    intro hnl hsafe
    have hnl1 : '\n' ∉ l := hnl l (by simp)
    have hs1 : spanSafe l = true := hsafe l (by simp)
    have ihr := ih (fun x hx => hnl x (by simp [hx]))
      (fun x hx => hsafe x (by simp [hx]))
    have hjoin : ∀ (z : List Char) (zs : List (List Char)),
        joinNl (z :: zs) = z ++ '\n' :: joinNl zs := by
      intro z zs
      simp [joinNl]
    rw [hjoin]
    by_cases hm : lineDateMatch l = true
    · have hlen : 5 ≤ l.length := take_eq_dateLit_length (by
        simp only [lineDateMatch, Bool.and_eq_true, decide_eq_true_eq] at hm
        exact hm.1)
      have htm := tryDateMatch_line_pos hm hs1 hnl1 (joinNl rest)
      cases l with
      | nil => simp at hlen
      | cons c l' =>
        rw [List.cons_append] at htm ⊢
        rw [dateSubAux_match htm]
        rw [show ((c :: (l' ++ '\n' :: joinNl rest)).length -
            ('\n' :: joinNl rest).length - 1) = l'.length from by
          simp only [List.length_cons, List.length_append]
          omega]
        rw [dateSubAux_skip l' ('\n' :: joinNl rest)]
        rw [show dateSubAux ('\n' :: joinNl rest) false 0 =
          '\n' :: dateSubAux (joinNl rest) (decide ('\n' = '\n')) 0 from rfl]
        rw [show (decide (('\n' : Char) = '\n')) = true from by simp, ihr]
        rw [List.map_cons, hjoin, if_pos hm]
    · have hmf : lineDateMatch l = false := by simpa using hm
      have htm := tryDateMatch_line_neg hmf hs1 (joinNl rest)
      cases l with
      | nil =>
        simp only [List.nil_append] at htm ⊢
        rw [dateSubAux_nomatch htm]
        rw [show (decide (('\n' : Char) = '\n')) = true from by simp, ihr]
        rw [List.map_cons, hjoin, if_neg (by simp [hmf])]
        simp
      | cons c l' =>
        have hc : c ≠ '\n' := fun he => hnl1 (by simp [he])
        rw [List.cons_append] at htm ⊢
        rw [dateSubAux_nomatch htm]
        rw [show (decide (c = '\n')) = false from by simp [hc]]
        rw [dateSubAux_text l' (joinNl rest)
          (fun y hy he => hnl1 (List.mem_cons_of_mem c (he ▸ hy)))]
        rw [ihr, List.map_cons, hjoin, if_neg (by simp [hmf])]
        simp

/-- C8 (amended): on a file whose lines are newline-free and whose
date-line tails never make the pattern span into later lines (spanSafe),
fix_date_in_file rewrites exactly the lines matching the anchored date
pattern to the literal new date line, leaves every other line
byte-identical, and reports a change iff some line changed; with no
matching line the text is returned unchanged and reported unchanged. -/
theorem c8_date_rewrites_matching_lines (lines : List (List Char))
    (hnl : ∀ l ∈ lines, '\n' ∉ l)
    (hsafe : ∀ l ∈ lines, spanSafe l = true) :
    fix_date_in_file (joinNl lines) =
      (joinNl (lines.map (fun l => if lineDateMatch l then newDateLine else l)),
       decide (joinNl (lines.map
         (fun l => if lineDateMatch l then newDateLine else l)) ≠
           joinNl lines)) ∧
    ((∀ l ∈ lines, lineDateMatch l = false) →
      fix_date_in_file (joinNl lines) = (joinNl lines, false)) := by
  have hcore := dateSub_lines lines hnl hsafe
  constructor
  · unfold fix_date_in_file dateSub
    rw [hcore]
  · intro hno
    have hmap : lines.map
        (fun l => if lineDateMatch l then newDateLine else l) = lines := by
      have he : ∀ l ∈ lines,
          (if lineDateMatch l then newDateLine else l) = id l := by
        intro l hl
        rw [if_neg (by simp [hno l hl])]
        rfl
      rw [List.map_congr_left he, List.map_id]
    unfold fix_date_in_file dateSub
    rw [hcore, hmap]
    simp

/-- C8 witness: the amended theorem applied to a concrete two-line file
with one matching date line. -/
theorem c8_witness :
    fix_date_in_file (joinNl ["date: 2020-01-01".toList, "title: x".toList]) =
      (joinNl (["date: 2020-01-01".toList, "title: x".toList].map
        (fun l => if lineDateMatch l then newDateLine else l)),
       decide (joinNl (["date: 2020-01-01".toList, "title: x".toList].map
         (fun l => if lineDateMatch l then newDateLine else l)) ≠
           joinNl ["date: 2020-01-01".toList, "title: x".toList])) :=
  (c8_date_rewrites_matching_lines _ (by decide) (by decide)).1

/-- C8 counterexample: neither line of "date:\nfoo\n" matches the date
pattern line-wise, yet re.MULTILINE \s+ crosses the newline, so the two
lines are collapsed into the single rewritten date line. -/
theorem c8_counterexample :
    lineDateMatch "date:".toList = false ∧
    lineDateMatch "foo".toList = false ∧
    fix_date_in_file "date:\nfoo\n".toList =
      ("date:   2025-07-17 12:05:57 -0400\n".toList, true) :=
  ⟨by decide, by decide, by decide⟩
